import Mathlib

/-!
Verification development for the simple in-memory key/value database with
nested transactions (`src/simple_database.py`).

The embedding below translates the Python source directly:

* Python dictionaries become association lists `List (String × α)`;
  `d[k] = v` updates the first occurrence in place or appends at the end
  (`dictSet`), `d.pop(k, None)` removes the first occurrence (`dictPop`),
  `d.get(k, default)` is `dictGet` with a `getD`.  Iteration over
  `d.items()` is iteration over the underlying list, which matches Python's
  insertion-order iteration.
* The `Data` class is `Data α` (used with `α = String` for the store and
  `α = List (Option String)` for the transaction history); `None` history
  entries are `none` (the deleted marker).
* The `transactions_opened` stack of touched-key sets is a list of lists
  with the top of the stack at the head (Python keeps the top at the end);
  a Python `set` becomes a duplicate-free list, `set.add` appends when the
  element is absent.
* Statements that can raise an uncaught exception are modelled in `Option`:
  `none` means the Python code raises (`AttributeError` on
  `Database.unset`'s non-transactional branch, source line 157;
  `IndexError`/`KeyError` on list pops and subscripting in
  `TransactionHandler.rollback`/`commit`/`set`/`unset`).
* Python truthiness of a history entry (`if value:` in
  `TransactionHandler.commit`, source line 465) is `pyTruthy`: an entry is
  truthy iff it is a string other than the empty string.
-/

/-- Lookup of the first binding of a key in an association list,
mirroring `d.get(key)` on a Python dict. -/
def dictGet {α : Type} : List (String × α) → String → Option α
  | [], _ => none
  | (k', v) :: t, k => if k' = k then some v else dictGet t k

/-- Assignment `d[key] = value` on a Python dict: replace the first binding
in place, or append a new binding at the end. -/
def dictSet {α : Type} : List (String × α) → String → α → List (String × α)
  | [], k, v => [(k, v)]
  | (k', v') :: t, k, v => if k' = k then (k, v) :: t else (k', v') :: dictSet t k v

/-- Removal `d.pop(key, None)` on a Python dict: drop the first binding of
the key, if any. -/
def dictPop {α : Type} : List (String × α) → String → List (String × α)
  | [], _ => []
  | (k', v') :: t, k => if k' = k then t else (k', v') :: dictPop t k

/-- Keys of an association list, in insertion order. -/
def keysOf {α : Type} (m : List (String × α)) : List String := m.map Prod.fst

/-- An association list represents a Python dict when no key is bound twice. -/
def NodupKeys {α : Type} (m : List (String × α)) : Prop := (keysOf m).Nodup

/-- Integer-valued lookup in a frequency dict, defaulting to `0`
(`values_freq.get(value, 0)`). -/
def freqD (m : List (String × Int)) (v : String) : Int := (dictGet m v).getD 0

/-- Last element of a list together with the list without it
(`key_list.pop()` on a Python list); `none` when the list is empty and the
Python call raises `IndexError`. -/
def popLast {α : Type} (l : List α) : Option (α × List α) :=
  match l.getLast? with
  | some e => some (e, l.dropLast)
  | none => none

/-- In-place overwrite of the last element (`key_list[-1] = value`); `none`
when the list is empty and the Python subscript raises `IndexError`. -/
def setLast {α : Type} (l : List α) (a : α) : Option (List α) :=
  match l with
  | [] => none
  | _ :: _ => some (l.dropLast ++ [a])

/-- Python truthiness of a history entry: `None` and the empty string are
falsy, every other string is truthy. -/
def pyTruthy : Option String → Bool
  | some s => s != ""
  | none => false

/-- The `Data` class: a key/value dict together with a frequency dict over
the values (source lines 494-497). -/
structure Data (α : Type) where
  data : List (String × α)
  values_freq : List (String × Int)
deriving Repr

/-- `Data.modify_freq` (source lines 515-526): add `num` to the count of a
value, removing the record when the new count is exactly `0`; no-op when the
value is `None`. -/
def Data.modify_freq (values_freq : List (String × Int)) (key_of_value : Option String)
    (num : Int) : List (String × Int) :=
  match key_of_value with
  | none => values_freq
  | some v =>
      let c := freqD values_freq v + num
      if c = 0 then dictPop (dictSet values_freq v c) v else dictSet values_freq v c

/-- `Data.increase_freq` (source lines 499-505). -/
def Data.increase_freq (values_freq : List (String × Int)) (key_of_value : Option String) :
    List (String × Int) :=
  Data.modify_freq values_freq key_of_value 1

/-- `Data.decrease_freq` (source lines 507-513). -/
def Data.decrease_freq (values_freq : List (String × Int)) (key_of_value : Option String) :
    List (String × Int) :=
  Data.modify_freq values_freq key_of_value (-1)

/-- Whole-system state: the `Database` object together with the state of its
`TransactionHandler` (`self.transactions` and `self.transactions_opened`,
source lines 61-63 and 293-297).  The top of the `transactions_opened`
stack is the head of the list. -/
structure Database where
  database : Data String
  transactions : Data (List (Option String))
  transactions_opened : List (List String)
deriving Repr

/-- The aggregate history list of a key (`self.transactions.data.get(key, [])`). -/
def histGet (s : Database) (k : String) : List (Option String) :=
  (dictGet s.transactions.data k).getD []

/-- `TransactionHandler.get` (source lines 299-322): the last aggregate
history entry of the key paired with a found flag. -/
def TransactionHandler.get (s : Database) (key : String) : Option String × Bool :=
  let key_list := histGet s key
  match key_list.getLast? with
  | some latest_value => (latest_value, true)
  | none => (none, false)

/-- `TransactionHandler.set` (source lines 324-357): append the new value to
the key's history, or overwrite the last entry in place when the current
layer already touched the key; adjust the aggregate frequencies.  `none`
when the overwrite subscripts an empty list. -/
def TransactionHandler.set (s : Database) (key : String) (old_value : Option String)
    (new_value : String) : Option Database :=
  match s.transactions_opened with
  | [] => some s
  | latest_transaction :: rest =>
      let key_list := histGet s key
      match
        if key ∈ latest_transaction then setLast key_list (some new_value)
        else some (key_list ++ [some new_value]) with
      | none => none
      | some key_list' =>
          some { s with
            transactions :=
              { data := dictSet s.transactions.data key key_list'
                values_freq :=
                  Data.increase_freq
                    (Data.decrease_freq s.transactions.values_freq old_value)
                    (some new_value) }
            transactions_opened :=
              (if key ∈ latest_transaction then latest_transaction
               else latest_transaction ++ [key]) :: rest }

/-- `TransactionHandler.unset` (source lines 359-388): like `set` but the
recorded entry is the deleted marker and only the old value's frequency is
decreased; no-op when no transaction is open or the old value is `None`. -/
def TransactionHandler.unset (s : Database) (key : String) (old_value : Option String) :
    Option Database :=
  match s.transactions_opened, old_value with
  | latest_transaction :: rest, some ov =>
      let key_list := histGet s key
      match
        if key ∈ latest_transaction then setLast key_list none
        else some (key_list ++ [none]) with
      | none => none
      | some key_list' =>
          some { s with
            transactions :=
              { data := dictSet s.transactions.data key key_list'
                values_freq := Data.decrease_freq s.transactions.values_freq (some ov) }
            transactions_opened :=
              (if key ∈ latest_transaction then latest_transaction
               else latest_transaction ++ [key]) :: rest }
  | _, _ => some s

/-- `TransactionHandler.num_equal_to` (source lines 390-408). -/
def TransactionHandler.num_equal_to (s : Database) (value : String) : Int :=
  freqD s.transactions.values_freq value

/-- `TransactionHandler.begin` (source lines 410-419): push an empty touched
set. -/
def TransactionHandler.begin (s : Database) : Database :=
  { s with transactions_opened := [] :: s.transactions_opened }

/-- `TransactionHandler.clear` (source lines 475-478). -/
def TransactionHandler.clear (s : Database) : Database :=
  { s with transactions := ⟨[], []⟩, transactions_opened := [] }

/-- Body of the rollback loop for one modified key (source lines 436-448):
pop the key's last history entry, find the newly current value (remaining
history entry, else the store), adjust the aggregate frequencies, and drop
the key's record when its history became empty.  `none` when the key is
missing from the history dict (`KeyError`) or its list is empty
(`IndexError`). -/
def rollbackKey (s : Database) (modified_key : String) : Option Database :=
  match dictGet s.transactions.data modified_key with
  | none => none
  | some key_list =>
      match popLast key_list with
      | none => none
      | some (modified_value, key_list') =>
          let data₁ := dictSet s.transactions.data modified_key key_list'
          let previous_value :=
            match key_list'.getLast? with
            | some e => e
            | none => dictGet s.database.data modified_key
          let freq₁ :=
            Data.decrease_freq
              (Data.increase_freq s.transactions.values_freq previous_value)
              modified_value
          let data₂ := if key_list' = [] then dictPop data₁ modified_key else data₁
          some { s with transactions := { data := data₂, values_freq := freq₁ } }

/-- `TransactionHandler.rollback` (source lines 421-448): with a single open
transaction, clear everything; with several, pop the top touched set and
undo each of its keys. -/
def TransactionHandler.rollback (s : Database) : Option Database :=
  match s.transactions_opened with
  | [] => some s
  | [_] => some (TransactionHandler.clear s)
  | latest_transaction :: rest =>
      latest_transaction.foldlM rollbackKey { s with transactions_opened := rest }

/-- Body of the commit loop for one aggregate history record (source lines
463-468): take the last entry; a truthy value is written to the store, a
falsy one removes the key.  `none` when the list is empty (`IndexError`). -/
def commitEntry (db : List (String × String)) (ent : String × List (Option String)) :
    Option (List (String × String)) :=
  match popLast ent.2 with
  | none => none
  | some (value, _) =>
      some (if pyTruthy value then dictSet db ent.1 (value.getD "") else dictPop db ent.1)

/-- `TransactionHandler.commit` (source lines 450-473): fold every aggregate
history record and every aggregate frequency record into the store, then
clear the transaction state. -/
def TransactionHandler.commit (s : Database) : Option Database :=
  match s.transactions_opened with
  | [] => some s
  | _ :: _ =>
      match s.transactions.data.foldlM commitEntry s.database.data with
      | none => none
      | some db' =>
          let freq' :=
            s.transactions.values_freq.foldl
              (fun f ent => Data.modify_freq f (some ent.1) ent.2)
              s.database.values_freq
          some (TransactionHandler.clear
            { s with database := { data := db', values_freq := freq' } })

/-- `TransactionHandler.is_active` (source lines 480-482). -/
def TransactionHandler.is_active (s : Database) : Bool :=
  s.transactions_opened.length > 0

/-- `Database.get` (source lines 65-94): with a transaction active, the
handler's answer when found; otherwise the store's binding. -/
def Database.get (s : Database) (key : String) : Option String :=
  if TransactionHandler.is_active s then
    match TransactionHandler.get s key with
    | (value, true) => value
    | (_, false) => dictGet s.database.data key
  else dictGet s.database.data key

/-- `Database.set` (source lines 96-130): no-op when the current value
already equals the new one; otherwise delegate to the handler or write the
store directly. -/
def Database.set (s : Database) (key new_value : String) : Option Database :=
  let old_value := Database.get s key
  if old_value ≠ some new_value then
    if TransactionHandler.is_active s then
      TransactionHandler.set s key old_value new_value
    else
      some { s with database :=
        { data := dictSet s.database.data key new_value
          values_freq :=
            Data.increase_freq (Data.decrease_freq s.database.values_freq old_value)
              (some new_value) } }
  else some s

/-- `Database.unset` (source lines 132-158): delegate to the handler when a
transaction is active.  The non-transactional branch of the source reads
`self.data`, an attribute the `Database` class does not have, so it raises
`AttributeError` (source line 157); that branch is therefore `none`. -/
def Database.unset (s : Database) (key : String) : Option Database :=
  let old_value := Database.get s key
  if TransactionHandler.is_active s then
    TransactionHandler.unset s key old_value
  else none

/-- `Database.num_equal_to` (source lines 160-182). -/
def Database.num_equal_to (s : Database) (value : String) : Int :=
  freqD s.database.values_freq value + TransactionHandler.num_equal_to s value

/-- `Database.begin` (source lines 184-195). -/
def Database.begin (s : Database) : Database :=
  TransactionHandler.begin s

/-- `Database.rollback` (source lines 197-215): the flag is the boolean the
method returns. -/
def Database.rollback (s : Database) : Option Database × Bool :=
  if TransactionHandler.is_active s then (TransactionHandler.rollback s, true)
  else (some s, false)

/-- `Database.commit` (source lines 217-236). -/
def Database.commit (s : Database) : Option Database × Bool :=
  if TransactionHandler.is_active s then (TransactionHandler.commit s, true)
  else (some s, false)

/-- Operations of the database facade. -/
inductive Op where
  | set (key value : String)
  | get (key : String)
  | unset (key : String)
  | numEqualTo (value : String)
  | begin
  | rollback
  | commit
deriving DecidableEq, Repr

/-- One operation applied to a state; `none` when the source raises. -/
def applyOp (s : Database) : Op → Option Database
  | .set k v => Database.set s k v
  | .get _ => some s
  | .unset k => Database.unset s k
  | .numEqualTo _ => some s
  | .begin => some (Database.begin s)
  | .rollback => (Database.rollback s).1
  | .commit => (Database.commit s).1

/-- A sequence of operations applied left to right. -/
def runOps : List Op → Database → Option Database
  | [], s => some s
  | op :: rest, s =>
      match applyOp s op with
      | some s' => runOps rest s'
      | none => none

/-- The freshly constructed database (source lines 61-63). -/
def dbInit : Database := ⟨⟨[], []⟩, ⟨[], []⟩, []⟩

/-- States reachable from the fresh database by successful operations. -/
inductive Reachable : Database → Prop where
  | init : Reachable dbInit
  | step {s s' : Database} {op : Op} :
      Reachable s → applyOp s op = some s' → Reachable s'

/-- Merged current value of a key as the specification describes it: the
topmost open layer's last history entry when the key has aggregate history,
else the store's binding. -/
def mergedAux (s : Database) (k : String) : Option String :=
  match (histGet s k).getLast? with
  | some e => e
  | none => dictGet s.database.data k

/-- Keys that can have a merged value: keys of the store and keys of the
aggregate history. -/
def mergedKeysList (s : Database) : List String :=
  (keysOf s.database.data ++ keysOf s.transactions.data).dedup

/-- Number of keys whose merged current value is `v`. -/
def mergedCount (s : Database) (v : String) : Nat :=
  (mergedKeysList s).countP (fun k => mergedAux s k == some v)

/-! ### The console dispatcher (`DBConsole`, source lines 530-613) -/

/-- Uppercasing performed by `str.upper()`. -/
def pyUpper (line : String) : String := String.mk (line.data.map Char.toUpper)

/-- Accumulating tokenizer behind `pySplit`: whitespace runs separate
tokens and produce no empty tokens. -/
def pySplitAux : List Char → List Char → List String
  | [], acc => if acc.isEmpty then [] else [String.mk acc.reverse]
  | c :: rest, acc =>
      if c.isWhitespace then
        if acc.isEmpty then pySplitAux rest []
        else String.mk acc.reverse :: pySplitAux rest []
      else pySplitAux rest (c :: acc)

/-- Tokenization performed by `input().split()`: split on whitespace runs,
dropping empty tokens. -/
def pySplit (line : String) : List String := pySplitAux line.data []

/-- `valid_operations_arguments` (source lines 547-555). -/
def valid_operations_arguments : List (String × Nat) :=
  [("GET", 1), ("SET", 2), ("UNSET", 1), ("NUMEQUALTO", 1),
   ("BEGIN", 0), ("ROLLBACK", 0), ("COMMIT", 0)]

/-- `DBConsole.read_from_stdin` applied to one already-read input line
(source lines 557-613): the updated state, the lines printed, and whether
the console keeps listening.  `none` when the dispatched operation raises. -/
def read_from_stdin (s : Database) (line : String) : Option (Database × List String × Bool) :=
  let fields := pySplit line
  match fields with
  | [] => some (s, [], true)
  | name :: arguments =>
      let method_name := pyUpper name
      let arguments_count := arguments.length
      if method_name = "END" then some (s, [], false)
      else if (method_name, arguments_count) ∈ valid_operations_arguments then
        if method_name = "GET" then
          let output := Database.get s (arguments.headD "")
          some (s, [if pyTruthy output then output.getD "" else "NULL"], true)
        else if method_name = "SET" then
          (Database.set s (arguments.headD "") ((arguments.drop 1).headD "")).map
            (fun s' => (s', [], true))
        else if method_name = "UNSET" then
          (Database.unset s (arguments.headD "")).map (fun s' => (s', [], true))
        else if method_name = "NUMEQUALTO" then
          some (s, [toString (Database.num_equal_to s (arguments.headD ""))], true)
        else if method_name = "BEGIN" then
          some (Database.begin s, [], true)
        else if method_name = "ROLLBACK" then
          (Database.rollback s).1.map
            (fun s' => (s', if (Database.rollback s).2 then [] else ["NO TRANSACTION"], true))
        else
          (Database.commit s).1.map
            (fun s' => (s', if (Database.commit s).2 then [] else ["NO TRANSACTION"], true))
      else some (s, ["Invalid method or number of arguments"], true)

/-! ### Invariants and auxiliary predicates -/

/-- Number of currently open transaction layers whose touched set contains
the key. -/
def countTouch (s : Database) (k : String) : Nat :=
  s.transactions_opened.countP (fun T => decide (k ∈ T))

/-- Structural well-formedness of a state: every dict has unique keys,
touched sets are duplicate-free, history records are non-empty, each key's
aggregate history has one entry per open layer that touched it, and an
empty stack comes with empty transaction data. -/
structure WF (s : Database) : Prop where
  ndStore : NodupKeys s.database.data
  ndStoreF : NodupKeys s.database.values_freq
  ndHist : NodupKeys s.transactions.data
  ndTxnF : NodupKeys s.transactions.values_freq
  ndTouched : ∀ T ∈ s.transactions_opened, T.Nodup
  histNonempty : ∀ k l, dictGet s.transactions.data k = some l → l ≠ []
  histLen : ∀ k, (histGet s k).length = countTouch s k
  emptyStack : s.transactions_opened = [] →
    s.transactions.data = [] ∧ s.transactions.values_freq = []

/-- The store's frequency index counts the keys of the store holding each
value. -/
def StoreInv (s : Database) : Prop :=
  ∀ v, freqD s.database.values_freq v =
    (((keysOf s.database.data).dedup.countP
      (fun k => dictGet s.database.data k == some v) : Nat) : Int)

/-- Claim C1's global frequency invariant: for every value, the store's
count plus the transaction stack's aggregate delta equals the number of
keys whose merged current value is that value. -/
def FreqInvariant (s : Database) : Prop :=
  ∀ v, freqD s.database.values_freq v + freqD s.transactions.values_freq v =
    ((mergedCount s v : Nat) : Int)

/-- No aggregate history entry records the empty string as a written value. -/
def NEHist (s : Database) : Prop :=
  ∀ k l, dictGet s.transactions.data k = some l → (some "") ∉ l

/-- Data operations: the commands allowed strictly inside a transaction
block for claims C2 and C3. -/
def isDataOp : Op → Bool
  | .set _ _ => true
  | .get _ => true
  | .unset _ => true
  | .numEqualTo _ => true
  | _ => false

/-- Operations that never write the empty string as a value. -/
def opSetNonempty : Op → Bool
  | .set _ v => v != ""
  | _ => true

/-- Last entry of a history list, or the deleted marker when the list is
empty. -/
def lastD (kl : List (Option String)) : Option String := kl.getLast?.getD none

/-- Indicator (as an integer) that the key's last aggregate history entry
writes the value `v`. -/
def entryInd (t : Database) (k v : String) : Int :=
  if (histGet t k).getLast? = some (some v) then 1 else 0

/-- Indicator that the merged current value of `k` in `s₀` is `v`. -/
def mergedInd (s₀ : Database) (k v : String) : Int :=
  if mergedAux s₀ k = some v then 1 else 0

/-- Net aggregate-frequency delta contributed by the keys of `T` (the keys
touched by the top layer) relative to the underlying state `s₀`. -/
def deltaSum (s₀ t : Database) (T : List String) (v : String) : Int :=
  (T.map (fun k => entryInd t k v - mergedInd s₀ k v)).sum

/-- Relation between a state `s₀` (before a `BEGIN`) and a state `t` inside
that transaction whose top layer has touched exactly the keys of `T`. -/
structure RInv (s₀ t : Database) (T : List String) : Prop where
  store_eq : t.database = s₀.database
  stack_eq : t.transactions_opened = T :: s₀.transactions_opened
  tnodup : T.Nodup
  hist_out : ∀ k, k ∉ T → dictGet t.transactions.data k = dictGet s₀.transactions.data k
  hist_in : ∀ k, k ∈ T → ∃ e, histGet t k = histGet s₀ k ++ [e]
  freq_eq : ∀ v, freqD t.transactions.values_freq v =
    freqD s₀.transactions.values_freq v + deltaSum s₀ t T v
  ndHist : NodupKeys t.transactions.data
  ndTxnF : NodupKeys t.transactions.values_freq

/-- Operations for which commit flattening can hold: `set` with a non-empty
value, `get` and `numEqualTo` (claim C3; `unset` is excluded because its
non-transactional branch raises, and empty-string values because commit
conflates them with the deleted marker). -/
def isFlatOp : Op → Bool
  | .set _ v => v != ""
  | .get _ => true
  | .numEqualTo _ => true
  | _ => false

/-- Simulation relation for claim C3 between the direct state `d` (no
transaction ever opened over the starting state `s₀`) and the transactional
state `t` (transactions open over the unchanged store of `s₀`): the two
runs agree on every key's merged value and, splitting `d`'s frequency index
into `s₀`'s store part and `t`'s aggregate delta part, on every value's
count. -/
structure CSim (s₀ d t : Database) : Prop where
  hwf : WF t
  dstack : d.transactions_opened = []
  dtxn : d.transactions.data = [] ∧ d.transactions.values_freq = []
  ndD : NodupKeys d.database.data
  ndDF : NodupKeys d.database.values_freq
  tstack : t.transactions_opened ≠ []
  tstore : t.database = s₀.database
  histLast : ∀ k kl, dictGet t.transactions.data k = some kl →
    ∃ v, kl.getLast? = some (some v) ∧ v ≠ ""
  look : ∀ k, mergedAux t k = dictGet d.database.data k
  freq : ∀ v, freqD s₀.database.values_freq v + freqD t.transactions.values_freq v =
    freqD d.database.values_freq v

/-- A one-key example state with no transaction open. -/
def exState1 : Database := ⟨⟨[("a", "1")], [("1", 1)]⟩, ⟨[], []⟩, []⟩

/-- The state reached by `BEGIN; SET a 1` from the fresh database. -/
def exTxnState : Database := ⟨⟨[], []⟩, ⟨[("a", [some "1"])], [("1", 1)]⟩, [["a"]]⟩

/-- The final state of `SET a 1; BEGIN; SET a 2; COMMIT`. -/
def c1WitState : Database := ⟨⟨[("a", "2")], [("2", 1)]⟩, ⟨[], []⟩, []⟩

/-- The final state of the run `BEGIN; SET a ""; COMMIT`. -/
def c1CexState : Database := ⟨⟨[], [("", 1)]⟩, ⟨[], []⟩, []⟩

/-- A reachable state whose only aggregate history entry is the written
empty string (reached by `BEGIN; SET a ""`). -/
def c4CexState : Database := ⟨⟨[], []⟩, ⟨[("a", [some ""])], [("", 1)]⟩, [["a"]]⟩

/-- The state `c4CexState` commits to. -/
def c4CexResult : Database := ⟨⟨[], [("", 1)]⟩, ⟨[], []⟩, []⟩

/-! ### Association-list lemmas -/

theorem dictGet_dictSet {α : Type} (m : List (String × α)) (k k' : String) (v : α) :
    dictGet (dictSet m k v) k' = if k = k' then some v else dictGet m k' := by
  induction m with
  | nil => by_cases h : k = k' <;> simp [dictSet, dictGet, h]
  | cons hd t ih =>
      obtain ⟨a, b⟩ := hd
      by_cases hak : a = k
      · subst hak
        by_cases h : a = k' <;> simp [dictSet, dictGet, h]
      · by_cases h : a = k'
        · subst h
          have : ¬ k = a := fun hh => hak hh.symm
          simp [dictSet, dictGet, hak, this]
        · simp [dictSet, dictGet, hak, h, ih]

theorem dictGet_dictPop_ne {α : Type} (m : List (String × α)) (k k' : String) (h : k ≠ k') :
    dictGet (dictPop m k) k' = dictGet m k' := by
  induction m with
  | nil => simp [dictPop]
  | cons hd t ih =>
      obtain ⟨a, b⟩ := hd
      by_cases hak : a = k
      · subst hak
        have hak' : ¬ a = k' := fun hh => h hh
        simp [dictPop, dictGet, hak']
      · have hka : ¬ k' = k := fun hh => h hh.symm
        by_cases h' : a = k' <;> simp [dictPop, dictGet, hak, h', hka, ih]

theorem dictGet_none_iff {α : Type} (m : List (String × α)) (k : String) :
    dictGet m k = none ↔ k ∉ keysOf m := by
  induction m with
  | nil => simp [dictGet, keysOf]
  | cons hd t ih =>
      obtain ⟨a, b⟩ := hd
      by_cases hak : a = k
      · subst hak; simp [dictGet, keysOf]
      · have hka : ¬ k = a := fun hh => hak hh.symm
        simp only [keysOf, List.map_cons] at ih ⊢
        simp [dictGet, hak, hka, ih]

theorem mem_keysOf_of_dictGet {α : Type} {m : List (String × α)} {k : String} {v : α}
    (h : dictGet m k = some v) : k ∈ keysOf m := by
  by_contra hmem
  rw [← dictGet_none_iff] at hmem
  simp [hmem] at h

theorem keysOf_dictSet {α : Type} (m : List (String × α)) (k : String) (v : α) :
    keysOf (dictSet m k v) = if k ∈ keysOf m then keysOf m else keysOf m ++ [k] := by
  induction m with
  | nil => simp [dictSet, keysOf]
  | cons hd t ih =>
      obtain ⟨a, b⟩ := hd
      by_cases hak : a = k
      · subst hak; simp [dictSet, keysOf]
      · have hka : ¬ k = a := fun hh => hak hh.symm
        by_cases hmem : k ∈ keysOf t
        · simp only [keysOf, List.map_cons] at ih ⊢
          simp only [keysOf] at hmem
          simp [dictSet, hak, hmem, hka, ih]
        · simp only [keysOf, List.map_cons] at ih ⊢
          simp only [keysOf] at hmem
          simp [dictSet, hak, hmem, hka, ih]

theorem keysOf_dictPop {α : Type} (m : List (String × α)) (k : String) :
    keysOf (dictPop m k) = (keysOf m).erase k := by
  induction m with
  | nil => simp [dictPop, keysOf]
  | cons hd t ih =>
      obtain ⟨a, b⟩ := hd
      by_cases hak : a = k
      · subst hak; simp [dictPop, keysOf, List.erase_cons_head]
      · simp only [keysOf, List.map_cons] at ih ⊢
        rw [show dictPop ((a, b) :: t) k = (a, b) :: dictPop t k by simp [dictPop, hak],
          List.map_cons, List.erase_cons_tail (by simp [hak])]
        simpa using ih

theorem nodupKeys_dictSet {α : Type} {m : List (String × α)} (k : String) (v : α)
    (h : NodupKeys m) : NodupKeys (dictSet m k v) := by
  unfold NodupKeys at *
  rw [keysOf_dictSet]
  by_cases hmem : k ∈ keysOf m
  · simpa [hmem] using h
  · simp [hmem, List.nodup_append, h]

theorem nodupKeys_dictPop {α : Type} {m : List (String × α)} (k : String)
    (h : NodupKeys m) : NodupKeys (dictPop m k) := by
  unfold NodupKeys at *
  rw [keysOf_dictPop]
  exact h.erase k

theorem dictGet_dictPop_self {α : Type} {m : List (String × α)} (k : String)
    (h : NodupKeys m) : dictGet (dictPop m k) k = none := by
  rw [dictGet_none_iff, keysOf_dictPop]
  exact (h.mem_erase_iff).not.mpr (by simp)

/-! ### Frequency-dict lemmas -/

theorem freqD_eq_zero_of_not_mem {m : List (String × Int)} {k : String}
    (h : k ∉ keysOf m) : freqD m k = 0 := by
  rw [← dictGet_none_iff] at h
  simp [freqD, h]

theorem freqD_modify_some {m : List (String × Int)} (h : NodupKeys m) (v w : String) (n : Int) :
    freqD (Data.modify_freq m (some v) n) w =
      if v = w then freqD m w + n else freqD m w := by
  simp only [Data.modify_freq, freqD]
  by_cases hc : (dictGet m v).getD 0 + n = 0
  · rw [if_pos hc]
    by_cases hvw : v = w
    · subst hvw
      have hpop := dictGet_dictPop_self (m := dictSet m v ((dictGet m v).getD 0 + n)) v
        (nodupKeys_dictSet v _ h)
      rw [hpop]
      simp
      omega
    · rw [dictGet_dictPop_ne _ _ _ hvw, dictGet_dictSet, if_neg hvw, if_neg hvw]
  · rw [if_neg hc]
    by_cases hvw : v = w
    · subst hvw
      rw [dictGet_dictSet, if_pos rfl, if_pos rfl]
      simp
    · rw [dictGet_dictSet, if_neg hvw, if_neg hvw]

theorem freqD_modify_opt {m : List (String × Int)} (h : NodupKeys m)
    (ov : Option String) (w : String) (n : Int) :
    freqD (Data.modify_freq m ov n) w =
      if ov = some w then freqD m w + n else freqD m w := by
  match ov with
  | none => simp [Data.modify_freq]
  | some v =>
      rw [freqD_modify_some h]
      by_cases hvw : v = w <;> simp [hvw]

theorem nodupKeys_modify_freq {m : List (String × Int)} (h : NodupKeys m)
    (ov : Option String) (n : Int) : NodupKeys (Data.modify_freq m ov n) := by
  match ov with
  | none => simpa [Data.modify_freq] using h
  | some v =>
      simp only [Data.modify_freq, freqD]
      by_cases hc : (dictGet m v).getD 0 + n = 0
      · rw [if_pos hc]
        exact nodupKeys_dictPop v (nodupKeys_dictSet v _ h)
      · rw [if_neg hc]
        exact nodupKeys_dictSet v _ h

theorem freqD_foldl_modify (L : List (String × Int)) :
    ∀ (m : List (String × Int)), NodupKeys m → NodupKeys L → ∀ (w : String),
    freqD (L.foldl (fun f ent => Data.modify_freq f (some ent.1) ent.2) m) w =
      freqD m w + freqD L w := by
  induction L with
  | nil => intro m hm _ w; simp [freqD, dictGet]
  | cons hd t ih =>
      intro m hm hL w
      obtain ⟨v, c⟩ := hd
      have hcons : (v :: keysOf t).Nodup := hL
      have hvt : v ∉ keysOf t := (List.nodup_cons.mp hcons).1
      have hLt : NodupKeys t := (List.nodup_cons.mp hcons).2
      rw [List.foldl_cons, ih (Data.modify_freq m (some v) c)
        (nodupKeys_modify_freq hm (some v) c) hLt w]
      rw [freqD_modify_some hm]
      by_cases hvw : v = w
      · subst hvw
        have h0 : freqD t v = 0 := freqD_eq_zero_of_not_mem hvt
        simp only [freqD, dictGet, if_pos rfl] at h0 ⊢
        rw [h0]
        simp
      · simp only [freqD, dictGet, if_neg hvw]

/-! ### Counting lemmas -/

theorem countP_congr_mem {L L' : List String} (hL : L.Nodup) (hL' : L'.Nodup)
    {p p' : String → Bool}
    (hpp : ∀ k, p k = p' k)
    (hmemL : ∀ k, p k = true → k ∈ L) (hmemL' : ∀ k, p' k = true → k ∈ L') :
    L.countP p = L'.countP p' := by
  have hperm : List.Perm (L.filter p) (L'.filter p') := by
    rw [List.perm_ext_iff_of_nodup (List.Nodup.filter p hL) (List.Nodup.filter p' hL')]
    intro a
    simp only [List.mem_filter]
    constructor
    · rintro ⟨_, hpa⟩
      exact ⟨hmemL' a ((hpp a) ▸ hpa), (hpp a) ▸ hpa⟩
    · rintro ⟨_, hpa⟩
      exact ⟨hmemL a ((hpp a).symm ▸ hpa), (hpp a).symm ▸ hpa⟩
  rw [List.countP_eq_length_filter, List.countP_eq_length_filter, hperm.length_eq]

theorem countP_erase_split {M : List String} (_hM : M.Nodup) (q : String → Bool) (k₀ : String)
    (hq : ∀ k, q k = true → k ∈ M) :
    (M.countP q : Int) = (M.erase k₀).countP q + (if q k₀ then 1 else 0) := by
  by_cases hmem : k₀ ∈ M
  · have hperm : List.Perm M (k₀ :: M.erase k₀) := List.perm_cons_erase hmem
    rw [hperm.countP_eq]
    rw [List.countP_cons]
    by_cases hq₀ : q k₀ = true <;> simp [hq₀]
  · have herase : M.erase k₀ = M := List.erase_of_not_mem hmem
    have hq₀ : q k₀ = false := by
      by_contra hq₀
      exact hmem (hq k₀ (by simpa using hq₀))
    simp [herase, hq₀]

theorem countP_update {L L' : List String} (hL : L.Nodup) (hL' : L'.Nodup) (k₀ : String)
    {p p' : String → Bool}
    (hagree : ∀ k, k ≠ k₀ → p k = p' k)
    (hmemL : ∀ k, p k = true → k ∈ L) (hmemL' : ∀ k, p' k = true → k ∈ L') :
    (L'.countP p' : Int) =
      L.countP p + (if p' k₀ then 1 else 0) - (if p k₀ then 1 else 0) := by
  have he₀ : k₀ ∉ L.erase k₀ := fun hmem => (hL.mem_erase_iff.mp hmem).1 rfl
  have he₀' : k₀ ∉ L'.erase k₀ := fun hmem => (hL'.mem_erase_iff.mp hmem).1 rfl
  have hmid : (L.erase k₀).countP p = (L'.erase k₀).countP p' := by
    rw [List.countP_congr (fun a ha => show p a = true ↔ (p a && decide (a ≠ k₀)) = true by
      have : a ≠ k₀ := fun hh => he₀ (hh ▸ ha)
      simp [this]),
      show (L'.erase k₀).countP p' = (L'.erase k₀).countP (fun k => p' k && decide (k ≠ k₀)) from
      List.countP_congr (fun a ha => show p' a = true ↔ (p' a && decide (a ≠ k₀)) = true by
      have : a ≠ k₀ := fun hh => he₀' (hh ▸ ha)
      simp [this])]
    apply countP_congr_mem (hL.erase k₀) (hL'.erase k₀)
    · intro k
      by_cases hk : k = k₀
      · subst hk; simp
      · simp [hk, hagree k hk]
    · intro k hk
      simp only [Bool.and_eq_true, decide_eq_true_eq] at hk
      exact (List.mem_erase_of_ne hk.2).mpr (hmemL k hk.1)
    · intro k hk
      simp only [Bool.and_eq_true, decide_eq_true_eq] at hk
      exact (List.mem_erase_of_ne hk.2).mpr (hmemL' k hk.1)
  have h1 := countP_erase_split hL p k₀ hmemL
  have h2 := countP_erase_split hL' p' k₀ hmemL'
  omega

/-! ### Easy claims: C5, C6, C7, C9 and the concrete counterexamples -/

/-- Claim C5: the spec says a direct `unset` of a present key with no open
transaction removes the key from the store and decreases its old value's
frequency.  The code instead reads the undefined attribute `self.data`
(source line 157) and raises `AttributeError`: on the state with store
`{a: 1}` and an empty stack, `unset a` raises instead of updating. -/
theorem unset_direct_raises :
    dictGet exState1.database.data "a" = some "1" ∧
    Database.unset exState1 "a" = none := by
  constructor <;> rfl

/-- Claim C6: the spec says unsetting an absent key is a no-op whether or
not a transaction is open.  With no transaction open the code raises
`AttributeError` on the undefined attribute `self.data` (source line 157)
even for an absent key: on the fresh database, `unset x` raises instead of
doing nothing. -/
theorem unset_absent_raises :
    Database.get dbInit "x" = none ∧ Database.unset dbInit "x" = none := by
  constructor <;> rfl

/-- Claim C7: setting a key to its merged current value returns the state
unchanged — the guard `old_value != new_value` (source line 124) short
circuits before any store, frequency, history or touched-set update. -/
theorem set_noop (s : Database) (key v : String) (h : Database.get s key = some v) :
    Database.set s key v = some s := by
  unfold Database.set
  simp [h]

/-- Claim C7 witness: a concrete no-op set. -/
theorem set_noop_witness :
    Database.get exState1 "a" = some "1" ∧ Database.set exState1 "a" "1" = some exState1 :=
  ⟨by rfl, set_noop exState1 "a" "1" (by rfl)⟩

/-- Claim C9 counterexample: the line `END` has a verb/argument-count pair
that is not in `valid_operations_arguments`, yet the dispatcher prints
nothing and terminates (the `END` check at source line 575 runs before the
validity check at source line 579) instead of printing the rejection line
and continuing. -/
theorem dispatcher_end_terminates :
    ("END", 0) ∉ valid_operations_arguments ∧
    read_from_stdin dbInit "END" = some (dbInit, [], false) := by
  constructor
  · decide
  · rfl

/-- Claim C9 as amended: every line with at least one token whose
uppercased verb is not `END` and whose verb/argument-count pair is not in
the table prints exactly the rejection line, leaves the state unchanged and
keeps the console listening. -/
theorem dispatcher_rejects_invalid (s : Database) (line : String)
    (name : String) (arguments : List String)
    (hfields : pySplit line = name :: arguments)
    (hEnd : pyUpper name ≠ "END")
    (hvalid : (pyUpper name, arguments.length) ∉ valid_operations_arguments) :
    read_from_stdin s line = some (s, ["Invalid method or number of arguments"], true) := by
  unfold read_from_stdin
  rw [hfields]
  simp [hEnd, hvalid]

/-- Claim C9 witness: the unknown verb `FOO` with one argument is rejected
on the fresh database. -/
theorem dispatcher_rejects_invalid_witness :
    pySplit "FOO x" = ["FOO", "x"] ∧ pyUpper "FOO" ≠ "END" ∧
    (pyUpper "FOO", 1) ∉ valid_operations_arguments ∧
    read_from_stdin dbInit "FOO x" =
      some (dbInit, ["Invalid method or number of arguments"], true) :=
  ⟨by decide, by decide, by decide,
    dispatcher_rejects_invalid dbInit "FOO x" "FOO" ["x"] (by decide) (by decide) (by decide)⟩

/-- Claim C1 counterexample: after the run `BEGIN; SET a ""; COMMIT`, the
commit's truthiness test (source line 465) drops the key but still folds
the empty string's frequency into the store, so the store counts one key
equal to `""` while no key's merged value is `""`. -/
theorem freq_invariant_violated :
    runOps [Op.begin, Op.set "a" "", Op.commit] dbInit = some c1CexState ∧
    ¬ FreqInvariant c1CexState := by
  refine ⟨by rfl, fun h => ?_⟩
  have h1 := h ""
  have h2 : freqD c1CexState.database.values_freq "" +
      freqD c1CexState.transactions.values_freq "" = 1 := by rfl
  have h3 : mergedCount c1CexState "" = 0 := by rfl
  rw [h2, h3] at h1
  simp at h1

/-- Claim C3 counterexample: with store `{a: 1}`, the sequence
`BEGIN; BEGIN; UNSET a; COMMIT` commits to the empty store, while running
`UNSET a` directly with no transaction raises `AttributeError` (source line
157) and yields no final store at all. -/
theorem commit_flattening_fails :
    runOps [Op.unset "a"] exState1 = none ∧
    (∃ u r, runOps [Op.unset "a"] (Database.begin (Database.begin exState1)) = some u ∧
      (Database.commit u).1 = some r ∧ r.database.data = [] ∧
      r.database.values_freq = []) := by
  refine ⟨by rfl, ⟨_, _, by rfl, by rfl, by rfl, by rfl⟩⟩

/-- Claim C4 counterexample: in the reachable state whose aggregate history
holds the single written value `""` for key `a` (not the deleted marker),
commit removes `a` from the store instead of setting it, because the
truthiness test `if value:` (source line 465) conflates the empty string
with the deleted marker. -/
theorem commit_empty_string_removed :
    histGet c4CexState "a" = [some ""] ∧
    (Database.commit c4CexState).1 = some c4CexResult ∧
    dictGet c4CexResult.database.data "a" = none := by
  refine ⟨by rfl, by rfl, by rfl⟩

/-! ### Step-description lemmas: explicit successor states per branch -/

theorem is_active_true_iff (s : Database) :
    TransactionHandler.is_active s = true ↔ s.transactions_opened ≠ [] := by
  unfold TransactionHandler.is_active
  cases s.transactions_opened <;> simp

theorem db_get_stack_empty {s : Database} (hstack : s.transactions_opened = []) (k : String) :
    Database.get s k = dictGet s.database.data k := by
  unfold Database.get
  have : TransactionHandler.is_active s = false := by
    unfold TransactionHandler.is_active
    simp [hstack]
  rw [this]
  simp

theorem db_get_active {s : Database} (hstack : s.transactions_opened ≠ []) (k : String) :
    Database.get s k = mergedAux s k := by
  unfold Database.get mergedAux TransactionHandler.get
  have : TransactionHandler.is_active s = true := (is_active_true_iff s).mpr hstack
  rw [this]
  simp only [if_true]
  cases (histGet s k).getLast? <;> simp

theorem db_get_eq_mergedAux {s : Database}
    (h0 : s.transactions_opened = [] → s.transactions.data = []) (k : String) :
    Database.get s k = mergedAux s k := by
  by_cases hstack : s.transactions_opened = []
  · rw [db_get_stack_empty hstack, mergedAux, histGet, h0 hstack]
    simp [dictGet]
  · exact db_get_active hstack k

theorem th_set_touched_eq {s : Database} {latest : List String} {rest : List (List String)}
    {key : String} (old : Option String) (v : String)
    (hstack : s.transactions_opened = latest :: rest)
    (hmem : key ∈ latest) (hne : histGet s key ≠ []) :
    TransactionHandler.set s key old v = some
      { database := s.database
        transactions :=
          { data := dictSet s.transactions.data key ((histGet s key).dropLast ++ [some v])
            values_freq :=
              Data.increase_freq (Data.decrease_freq s.transactions.values_freq old) (some v) }
        transactions_opened := latest :: rest } := by
  unfold TransactionHandler.set
  rw [hstack]
  simp only [hmem, if_pos]
  rw [show setLast (histGet s key) (some v) = some ((histGet s key).dropLast ++ [some v]) by
    unfold setLast
    match hh : histGet s key with
    | [] => exact absurd hh hne
    | a :: t => rfl]

theorem th_set_fresh_eq {s : Database} {latest : List String} {rest : List (List String)}
    {key : String} (old : Option String) (v : String)
    (hstack : s.transactions_opened = latest :: rest)
    (hmem : key ∉ latest) :
    TransactionHandler.set s key old v = some
      { database := s.database
        transactions :=
          { data := dictSet s.transactions.data key (histGet s key ++ [some v])
            values_freq :=
              Data.increase_freq (Data.decrease_freq s.transactions.values_freq old) (some v) }
        transactions_opened := (latest ++ [key]) :: rest } := by
  unfold TransactionHandler.set
  rw [hstack]
  simp [hmem]

theorem th_unset_touched_eq {s : Database} {latest : List String} {rest : List (List String)}
    {key : String} (ov : String)
    (hstack : s.transactions_opened = latest :: rest)
    (hmem : key ∈ latest) (hne : histGet s key ≠ []) :
    TransactionHandler.unset s key (some ov) = some
      { database := s.database
        transactions :=
          { data := dictSet s.transactions.data key ((histGet s key).dropLast ++ [none])
            values_freq := Data.decrease_freq s.transactions.values_freq (some ov) }
        transactions_opened := latest :: rest } := by
  unfold TransactionHandler.unset
  rw [hstack]
  simp only [hmem, if_pos]
  rw [show setLast (histGet s key) none = some ((histGet s key).dropLast ++ [none]) by
    unfold setLast
    match hh : histGet s key with
    | [] => exact absurd hh hne
    | a :: t => rfl]

theorem th_unset_fresh_eq {s : Database} {latest : List String} {rest : List (List String)}
    {key : String} (ov : String)
    (hstack : s.transactions_opened = latest :: rest)
    (hmem : key ∉ latest) :
    TransactionHandler.unset s key (some ov) = some
      { database := s.database
        transactions :=
          { data := dictSet s.transactions.data key (histGet s key ++ [none])
            values_freq := Data.decrease_freq s.transactions.values_freq (some ov) }
        transactions_opened := (latest ++ [key]) :: rest } := by
  unfold TransactionHandler.unset
  rw [hstack]
  simp [hmem]

theorem th_unset_none_eq {s : Database} {key : String} :
    TransactionHandler.unset s key none = some s := by
  unfold TransactionHandler.unset
  cases s.transactions_opened <;> rfl

theorem db_set_self {s : Database} {key v : String} (h : Database.get s key = some v) :
    Database.set s key v = some s := by
  unfold Database.set
  simp [h]

theorem db_set_direct_eq {s : Database} {key v : String}
    (hstack : s.transactions_opened = [])
    (hold : Database.get s key ≠ some v) :
    Database.set s key v = some
      { s with database :=
        { data := dictSet s.database.data key v
          values_freq :=
            Data.increase_freq
              (Data.decrease_freq s.database.values_freq (Database.get s key)) (some v) } } := by
  unfold Database.set
  have : TransactionHandler.is_active s = false := by
    unfold TransactionHandler.is_active
    simp [hstack]
  simp [hold, this]

theorem db_set_txn_eq {s : Database} {key v : String}
    (hstack : s.transactions_opened ≠ [])
    (hold : Database.get s key ≠ some v) :
    Database.set s key v = TransactionHandler.set s key (Database.get s key) v := by
  unfold Database.set
  have : TransactionHandler.is_active s = true := (is_active_true_iff s).mpr hstack
  simp [hold, this]

theorem db_unset_txn_eq {s : Database} {key : String}
    (hstack : s.transactions_opened ≠ []) :
    Database.unset s key = TransactionHandler.unset s key (Database.get s key) := by
  unfold Database.unset
  have : TransactionHandler.is_active s = true := (is_active_true_iff s).mpr hstack
  simp [this]

theorem db_unset_direct_none {s : Database} {key : String}
    (hstack : s.transactions_opened = []) :
    Database.unset s key = none := by
  unfold Database.unset
  have : TransactionHandler.is_active s = false := by
    unfold TransactionHandler.is_active
    simp [hstack]
  simp [this]

theorem lastD_concat (l : List (Option String)) (e : Option String) :
    lastD (l ++ [e]) = e := by
  simp [lastD]

theorem rollbackKey_eq {s : Database} {k : String} {l : List (Option String)}
    {e : Option String}
    (hkl : dictGet s.transactions.data k = some (l ++ [e])) :
    rollbackKey s k = some
      { database := s.database
        transactions :=
          { data :=
              if l = [] then dictPop (dictSet s.transactions.data k l) k
              else dictSet s.transactions.data k l
            values_freq :=
              Data.decrease_freq
                (Data.increase_freq s.transactions.values_freq
                  (match l.getLast? with
                   | some e' => e'
                   | none => dictGet s.database.data k)) e }
        transactions_opened := s.transactions_opened } := by
  unfold rollbackKey
  rw [hkl]
  simp only [popLast, List.getLast?_concat, List.dropLast_concat]

theorem commitEntry_eq {base : List (String × String)} {k₀ : String}
    {kl₀ : List (Option String)} (hne : kl₀ ≠ []) :
    commitEntry base (k₀, kl₀) = some
      (if pyTruthy (lastD kl₀) then dictSet base k₀ ((lastD kl₀).getD "")
       else dictPop base k₀) := by
  unfold commitEntry popLast lastD
  match hh : kl₀.getLast? with
  | some e => simp
  | none => exact absurd (List.getLast?_eq_none_iff.mp hh) hne

theorem commit_fold_eq (L : List (String × List (Option String))) :
    ∀ (base : List (String × String)), NodupKeys L → NodupKeys base →
    (∀ k kl, dictGet L k = some kl → kl ≠ []) →
    ∃ db', L.foldlM commitEntry base = some db' ∧ NodupKeys db' ∧
      (∀ k, dictGet db' k =
        match dictGet L k with
        | some kl => if pyTruthy (lastD kl) then some ((lastD kl).getD "") else none
        | none => dictGet base k) := by
  induction L with
  | nil =>
      intro base _ hbase _
      exact ⟨base, rfl, hbase, fun k => by simp [dictGet]⟩
  | cons hd t ih =>
      intro base hL hbase hne
      obtain ⟨k₀, kl₀⟩ := hd
      have hcons : (k₀ :: keysOf t).Nodup := hL
      have hk₀t : k₀ ∉ keysOf t := (List.nodup_cons.mp hcons).1
      have hLt : NodupKeys t := (List.nodup_cons.mp hcons).2
      have hkl₀ : kl₀ ≠ [] := hne k₀ kl₀ (by simp [dictGet])
      have hstep := @commitEntry_eq base k₀ kl₀ hkl₀
      set base₁ := if pyTruthy (lastD kl₀) then dictSet base k₀ ((lastD kl₀).getD "")
        else dictPop base k₀ with hbase₁
      have hbase₁nd : NodupKeys base₁ := by
        rw [hbase₁]
        by_cases ht : pyTruthy (lastD kl₀) = true
        · simp only [ht, if_pos]
          exact nodupKeys_dictSet _ _ hbase
        · simp only [Bool.not_eq_true] at ht
          simp only [ht]
          simp only [Bool.false_eq_true, if_false]
          exact nodupKeys_dictPop _ hbase
      have hnet : ∀ k kl, dictGet t k = some kl → kl ≠ [] := by
        intro k kl hk
        apply hne k kl
        have hkk₀ : ¬ k₀ = k := by
          intro hh
          subst hh
          exact hk₀t (mem_keysOf_of_dictGet hk)
        simpa [dictGet, hkk₀] using hk
      obtain ⟨db', hfold, hnd, hlook⟩ := ih base₁ hLt hbase₁nd hnet
      refine ⟨db', ?_, hnd, ?_⟩
      · rw [List.foldlM_cons, hstep]
        exact hfold
      · intro k
        by_cases hk : k₀ = k
        · subst hk
          have ht₀ : dictGet t k₀ = none :=
            (dictGet_none_iff t k₀).mpr hk₀t
          have hL₀ : dictGet ((k₀, kl₀) :: t) k₀ = some kl₀ := by simp [dictGet]
          rw [hlook k₀, ht₀, hL₀]
          dsimp only
          rw [hbase₁]
          by_cases htr : pyTruthy (lastD kl₀) = true
          · simp [htr, dictGet_dictSet]
          · simp only [Bool.not_eq_true] at htr
            simp only [htr, Bool.false_eq_true, if_false]
            exact dictGet_dictPop_self k₀ hbase
        · rw [hlook k]
          have hLk : dictGet ((k₀, kl₀) :: t) k = dictGet t k := by
            simp [dictGet, hk]
          rw [hLk]
          cases htk : dictGet t k with
          | some kl => simp
          | none =>
              simp only
              rw [hbase₁]
              by_cases htr : pyTruthy (lastD kl₀) = true
              · simp only [htr, if_pos]
                rw [dictGet_dictSet, if_neg hk]
              · simp only [Bool.not_eq_true] at htr
                simp only [htr, Bool.false_eq_true, if_false]
                exact dictGet_dictPop_ne _ _ _ hk

theorem nodup_foldl_modify (L : List (String × Int)) :
    ∀ (m : List (String × Int)), NodupKeys m →
    NodupKeys (L.foldl (fun f ent => Data.modify_freq f (some ent.1) ent.2) m) := by
  induction L with
  | nil => intro m hm; exact hm
  | cons hd t ih =>
      intro m hm
      rw [List.foldl_cons]
      exact ih _ (nodupKeys_modify_freq hm (some hd.1) hd.2)

theorem th_rollback_one_eq {s : Database} {latest : List String}
    (hstack : s.transactions_opened = [latest]) :
    TransactionHandler.rollback s = some (TransactionHandler.clear s) := by
  unfold TransactionHandler.rollback
  rw [hstack]

theorem th_rollback_multi_eq {s : Database} {latest : List String} {rest : List (List String)}
    (hstack : s.transactions_opened = latest :: rest) (hrest : rest ≠ []) :
    TransactionHandler.rollback s =
      latest.foldlM rollbackKey { s with transactions_opened := rest } := by
  unfold TransactionHandler.rollback
  rw [hstack]
  cases rest with
  | nil => exact absurd rfl hrest
  | cons r rs => rfl

theorem th_commit_desc {s : Database} (hstack : s.transactions_opened ≠ [])
    (ndStore : NodupKeys s.database.data) (ndStoreF : NodupKeys s.database.values_freq)
    (ndHist : NodupKeys s.transactions.data) (ndTxnF : NodupKeys s.transactions.values_freq)
    (histNE : ∀ k kl, dictGet s.transactions.data k = some kl → kl ≠ []) :
    ∃ s', TransactionHandler.commit s = some s' ∧
      s'.transactions = ⟨[], []⟩ ∧ s'.transactions_opened = [] ∧
      NodupKeys s'.database.data ∧ NodupKeys s'.database.values_freq ∧
      (∀ k, dictGet s'.database.data k =
        match dictGet s.transactions.data k with
        | some kl => if pyTruthy (lastD kl) then some ((lastD kl).getD "") else none
        | none => dictGet s.database.data k) ∧
      (∀ v, freqD s'.database.values_freq v =
        freqD s.database.values_freq v + freqD s.transactions.values_freq v) := by
  obtain ⟨db', hfold, hnd, hlook⟩ :=
    commit_fold_eq s.transactions.data s.database.data ndHist ndStore histNE
  unfold TransactionHandler.commit
  cases hs : s.transactions_opened with
  | nil => exact absurd hs hstack
  | cons a t =>
      rw [hfold]
      refine ⟨_, rfl, rfl, rfl, hnd, nodup_foldl_modify _ _ ndStoreF, hlook, ?_⟩
      intro v
      exact freqD_foldl_modify s.transactions.values_freq s.database.values_freq
        ndStoreF ndTxnF v

theorem db_commit_active {s : Database} (hstack : s.transactions_opened ≠ []) :
    Database.commit s = (TransactionHandler.commit s, true) := by
  unfold Database.commit
  rw [(is_active_true_iff s).mpr hstack]
  simp

theorem db_commit_inactive {s : Database} (hstack : s.transactions_opened = []) :
    Database.commit s = (some s, false) := by
  unfold Database.commit
  have : TransactionHandler.is_active s = false := by
    unfold TransactionHandler.is_active
    simp [hstack]
  rw [this]
  simp

theorem db_rollback_active {s : Database} (hstack : s.transactions_opened ≠ []) :
    Database.rollback s = (TransactionHandler.rollback s, true) := by
  unfold Database.rollback
  rw [(is_active_true_iff s).mpr hstack]
  simp

theorem db_rollback_inactive {s : Database} (hstack : s.transactions_opened = []) :
    Database.rollback s = (some s, false) := by
  unfold Database.rollback
  have : TransactionHandler.is_active s = false := by
    unfold TransactionHandler.is_active
    simp [hstack]
  rw [this]
  simp

/-! ### Preservation of structural well-formedness -/

theorem histGet_ne_nil_dictGet {s : Database} {k : String} (h : histGet s k ≠ []) :
    dictGet s.transactions.data k = some (histGet s k) := by
  unfold histGet at *
  cases hh : dictGet s.transactions.data k with
  | none => rw [hh] at h; simp at h
  | some kl => simp [hh]

theorem countP_stack_cons (T : List String) (rest : List (List String)) (k : String) :
    (T :: rest).countP (fun T' => decide (k ∈ T')) =
      rest.countP (fun T' => decide (k ∈ T')) + (if k ∈ T then 1 else 0) := by
  rw [List.countP_cons]
  by_cases h : k ∈ T <;> simp [h]

theorem wf_begin {s : Database} (hwf : WF s) : WF (Database.begin s) := by
  obtain ⟨nd1, nd2, nd3, nd4, ndT, hne, hlen, hemp⟩ := hwf
  refine ⟨nd1, nd2, nd3, nd4, ?_, hne, ?_, ?_⟩
  · intro T hT
    simp only [Database.begin, TransactionHandler.begin, List.mem_cons] at hT
    rcases hT with h | h
    · subst h; exact List.nodup_nil
    · exact ndT T h
  · intro k
    show (histGet s k).length = countTouch ⟨s.database, s.transactions, [] :: s.transactions_opened⟩ k
    unfold countTouch
    simp only [countP_stack_cons]
    simp [hlen k, countTouch]
  · intro h
    simp only [Database.begin, TransactionHandler.begin] at h
    exact absurd h (by simp)

theorem nodupKeys_incdec {m : List (String × Int)} (h : NodupKeys m)
    (ov nv : Option String) :
    NodupKeys (Data.increase_freq (Data.decrease_freq m ov) nv) :=
  nodupKeys_modify_freq (nodupKeys_modify_freq h ov (-1)) nv 1

theorem freqD_incdec {m : List (String × Int)} (h : NodupKeys m)
    (ov nv : Option String) (w : String) :
    freqD (Data.increase_freq (Data.decrease_freq m ov) nv) w =
      freqD m w - (if ov = some w then 1 else 0) + (if nv = some w then 1 else 0) := by
  unfold Data.increase_freq Data.decrease_freq
  rw [freqD_modify_opt (nodupKeys_modify_freq h ov (-1)) nv w 1,
    freqD_modify_opt h ov w (-1)]
  by_cases h1 : ov = some w <;> by_cases h2 : nv = some w <;> (simp [h1, h2]; try omega)

theorem freqD_dec {m : List (String × Int)} (h : NodupKeys m)
    (ov : Option String) (w : String) :
    freqD (Data.decrease_freq m ov) w =
      freqD m w - (if ov = some w then 1 else 0) := by
  unfold Data.decrease_freq
  rw [freqD_modify_opt h ov w (-1)]
  by_cases h1 : ov = some w <;> (simp [h1]; try omega)

theorem histGet_set_state {s₁ s : Database} {key : String} {kl' : List (Option String)}
    (hdata : s₁.transactions.data = dictSet s.transactions.data key kl') (k : String) :
    histGet s₁ k = if key = k then kl' else histGet s k := by
  unfold histGet
  rw [hdata, dictGet_dictSet]
  by_cases h : key = k <;> simp [h]

theorem countTouch_stack {s₁ : Database} {T : List String} {rest : List (List String)}
    (hstack : s₁.transactions_opened = T :: rest) (k : String) :
    countTouch s₁ k =
      rest.countP (fun T' => decide (k ∈ T')) + (if k ∈ T then 1 else 0) := by
  unfold countTouch
  rw [hstack, countP_stack_cons]

theorem histGet_ne_of_touched {s : Database} {latest : List String} {rest : List (List String)}
    {key : String} (hwf : WF s) (hs : s.transactions_opened = latest :: rest)
    (hmem : key ∈ latest) : histGet s key ≠ [] := by
  have hl := hwf.histLen key
  rw [countTouch_stack hs key, if_pos hmem] at hl
  intro hnil
  rw [hnil] at hl
  simp at hl

theorem wf_write_touched {s : Database} {latest : List String} {rest : List (List String)}
    {key : String} (hwf : WF s) (hs : s.transactions_opened = latest :: rest)
    (hmem : key ∈ latest) (entry : Option String) {freq' : List (String × Int)}
    (hfreq : NodupKeys freq') :
    WF ⟨s.database,
        ⟨dictSet s.transactions.data key ((histGet s key).dropLast ++ [entry]), freq'⟩,
        latest :: rest⟩ := by
  have hhne := histGet_ne_of_touched hwf hs hmem
  have hpos : 0 < (histGet s key).length := List.length_pos.mpr hhne
  refine ⟨hwf.ndStore, hwf.ndStoreF, nodupKeys_dictSet _ _ hwf.ndHist, hfreq, ?_, ?_, ?_, ?_⟩
  · intro T hT
    exact hwf.ndTouched T (by rw [hs]; exact hT)
  · intro k kl hkl
    dsimp only at hkl
    rw [dictGet_dictSet] at hkl
    by_cases hkk : key = k
    · rw [if_pos hkk] at hkl
      cases hkl
      simp
    · rw [if_neg hkk] at hkl
      exact hwf.histNonempty k kl hkl
  · intro k
    rw [histGet_set_state rfl k, countTouch_stack rfl k]
    by_cases hkk : key = k
    · have hl := hwf.histLen key
      rw [countTouch_stack hs key, if_pos hmem] at hl
      subst hkk
      rw [if_pos rfl, if_pos hmem]
      simp only [List.length_append, List.length_dropLast, List.length_cons,
        List.length_nil]
      omega
    · rw [if_neg hkk]
      have hl := hwf.histLen k
      rw [countTouch_stack hs k] at hl
      exact hl
  · intro hcontra
    simp at hcontra

theorem wf_write_fresh {s : Database} {latest : List String} {rest : List (List String)}
    {key : String} (hwf : WF s) (hs : s.transactions_opened = latest :: rest)
    (hmem : key ∉ latest) (entry : Option String) {freq' : List (String × Int)}
    (hfreq : NodupKeys freq') :
    WF ⟨s.database,
        ⟨dictSet s.transactions.data key (histGet s key ++ [entry]), freq'⟩,
        (latest ++ [key]) :: rest⟩ := by
  refine ⟨hwf.ndStore, hwf.ndStoreF, nodupKeys_dictSet _ _ hwf.ndHist, hfreq, ?_, ?_, ?_, ?_⟩
  · intro T hT
    dsimp only at hT
    rcases List.mem_cons.mp hT with h | h
    · subst h
      have hnd := hwf.ndTouched latest (by rw [hs]; simp)
      simp [List.nodup_append, hnd, hmem]
    · exact hwf.ndTouched T (by rw [hs]; exact List.mem_cons_of_mem _ h)
  · intro k kl hkl
    dsimp only at hkl
    rw [dictGet_dictSet] at hkl
    by_cases hkk : key = k
    · rw [if_pos hkk] at hkl
      cases hkl
      simp
    · rw [if_neg hkk] at hkl
      exact hwf.histNonempty k kl hkl
  · intro k
    rw [histGet_set_state rfl k, countTouch_stack rfl k]
    have hl := hwf.histLen k
    rw [countTouch_stack hs k] at hl
    by_cases hkk : key = k
    · subst hkk
      rw [if_pos rfl, if_pos (by simp)]
      rw [if_neg hmem] at hl
      simp only [List.length_append, List.length_cons, List.length_nil]
      omega
    · rw [if_neg hkk]
      have hkey : (k ∈ latest ++ [key]) ↔ k ∈ latest := by
        simp only [List.mem_append, List.mem_singleton]
        constructor
        · rintro (h | h)
          · exact h
          · exact absurd h.symm hkk
        · intro h; exact Or.inl h
      rw [show (if k ∈ latest ++ [key] then (1 : Nat) else 0) =
        (if k ∈ latest then 1 else 0) by rw [if_congr hkey rfl rfl]]
      exact hl
  · intro hcontra
    simp at hcontra

theorem wf_set {s s' : Database} {key v : String} (hwf : WF s)
    (h : Database.set s key v = some s') : WF s' := by
  by_cases hold : Database.get s key = some v
  · rw [db_set_self hold] at h
    cases h
    exact hwf
  · by_cases hstack : s.transactions_opened = []
    · rw [db_set_direct_eq hstack hold] at h
      cases h
      refine ⟨?_, ?_, hwf.ndHist, hwf.ndTxnF, hwf.ndTouched, hwf.histNonempty,
        hwf.histLen, hwf.emptyStack⟩
      · exact nodupKeys_dictSet _ _ hwf.ndStore
      · show NodupKeys (Data.increase_freq
          (Data.decrease_freq s.database.values_freq (Database.get s key)) (some v))
        exact nodupKeys_incdec hwf.ndStoreF _ _
    · rw [db_set_txn_eq hstack hold] at h
      cases hs : s.transactions_opened with
      | nil => exact absurd hs hstack
      | cons latest rest =>
          by_cases hmem : key ∈ latest
          · rw [th_set_touched_eq _ _ hs hmem (histGet_ne_of_touched hwf hs hmem)] at h
            cases h
            exact wf_write_touched hwf hs hmem (some v) (nodupKeys_incdec hwf.ndTxnF _ _)
          · rw [th_set_fresh_eq _ _ hs hmem] at h
            cases h
            exact wf_write_fresh hwf hs hmem (some v) (nodupKeys_incdec hwf.ndTxnF _ _)

theorem wf_unset {s s' : Database} {key : String} (hwf : WF s)
    (h : Database.unset s key = some s') : WF s' := by
  by_cases hstack : s.transactions_opened = []
  · rw [db_unset_direct_none hstack] at h
    cases h
  · rw [db_unset_txn_eq hstack] at h
    cases hov : Database.get s key with
    | none =>
        rw [hov, th_unset_none_eq] at h
        cases h
        exact hwf
    | some ov =>
        rw [hov] at h
        cases hs : s.transactions_opened with
        | nil => exact absurd hs hstack
        | cons latest rest =>
            by_cases hmem : key ∈ latest
            · rw [th_unset_touched_eq _ hs hmem (histGet_ne_of_touched hwf hs hmem)] at h
              cases h
              exact wf_write_touched hwf hs hmem none
                (nodupKeys_modify_freq hwf.ndTxnF _ _)
            · rw [th_unset_fresh_eq _ hs hmem] at h
              cases h
              exact wf_write_fresh hwf hs hmem none
                (nodupKeys_modify_freq hwf.ndTxnF _ _)

theorem rollback_fold_wf (P : List String) :
    ∀ (st : Database), P.Nodup →
    NodupKeys st.transactions.data → NodupKeys st.transactions.values_freq →
    (∀ k kl, dictGet st.transactions.data k = some kl → kl ≠ []) →
    (∀ k, (histGet st k).length = countTouch st k + (if k ∈ P then 1 else 0)) →
    ∃ s', P.foldlM rollbackKey st = some s' ∧
      s'.database = st.database ∧ s'.transactions_opened = st.transactions_opened ∧
      NodupKeys s'.transactions.data ∧ NodupKeys s'.transactions.values_freq ∧
      (∀ k kl, dictGet s'.transactions.data k = some kl → kl ≠ []) ∧
      (∀ k, (histGet s' k).length = countTouch s' k) ∧
      (∀ k, k ∉ P → dictGet s'.transactions.data k = dictGet st.transactions.data k) := by
  induction P with
  | nil =>
      intro st _ nd3 nd4 hne hlen
      refine ⟨st, rfl, rfl, rfl, nd3, nd4, hne, ?_, fun k _ => rfl⟩
      intro k
      have := hlen k
      simpa using this
  | cons k₀ P' ih =>
      intro st hnodup nd3 nd4 hne hlen
      have hk₀P' : k₀ ∉ P' := (List.nodup_cons.mp hnodup).1
      have hP' : P'.Nodup := (List.nodup_cons.mp hnodup).2
      have hpos : 0 < (histGet st k₀).length := by
        have := hlen k₀
        simp only [List.mem_cons, true_or, if_pos] at this
        omega
      have hhne : histGet st k₀ ≠ [] := by
        intro hnil
        rw [hnil] at hpos
        simp at hpos
      have hdg : dictGet st.transactions.data k₀ =
          some ((histGet st k₀).dropLast ++ [(histGet st k₀).getLast hhne]) := by
        rw [List.dropLast_append_getLast hhne]
        exact histGet_ne_nil_dictGet hhne
      have hstep := rollbackKey_eq hdg
      set l := (histGet st k₀).dropLast with hl
      set st₁ : Database :=
        { database := st.database
          transactions :=
            { data :=
                if l = [] then dictPop (dictSet st.transactions.data k₀ l) k₀
                else dictSet st.transactions.data k₀ l
              values_freq :=
                Data.decrease_freq
                  (Data.increase_freq st.transactions.values_freq
                    (match l.getLast? with
                     | some e' => e'
                     | none => dictGet st.database.data k₀)) ((histGet st k₀).getLast hhne) }
          transactions_opened := st.transactions_opened } with hst₁
      have hdata₁ : ∀ k, dictGet st₁.transactions.data k =
          if k₀ = k then (if l = [] then none else some l)
          else dictGet st.transactions.data k := by
        intro k
        rw [hst₁]
        dsimp only
        by_cases hll : l = []
        · rw [if_pos hll]
          by_cases hkk : k₀ = k
          · subst hkk
            rw [if_pos rfl, if_pos hll]
            exact dictGet_dictPop_self k₀ (nodupKeys_dictSet _ _ nd3)
          · rw [if_neg hkk, dictGet_dictPop_ne _ _ _ hkk, dictGet_dictSet, if_neg hkk]
        · rw [if_neg hll, dictGet_dictSet]
          by_cases hkk : k₀ = k
          · rw [if_pos hkk, if_pos hkk, if_neg hll]
          · rw [if_neg hkk, if_neg hkk]
      have hhist₁ : ∀ k, histGet st₁ k = if k₀ = k then l else histGet st k := by
        intro k
        unfold histGet
        rw [hdata₁ k]
        by_cases hkk : k₀ = k
        · rw [if_pos hkk, if_pos hkk]
          by_cases hll : l = [] <;> simp [hll]
        · rw [if_neg hkk, if_neg hkk]
      have hnd₁ : NodupKeys st₁.transactions.data := by
        rw [hst₁]
        dsimp only
        by_cases hll : l = []
        · rw [if_pos hll]
          exact nodupKeys_dictPop _ (nodupKeys_dictSet _ _ nd3)
        · rw [if_neg hll]
          exact nodupKeys_dictSet _ _ nd3
      have hndf₁ : NodupKeys st₁.transactions.values_freq := by
        rw [hst₁]
        dsimp only
        exact nodupKeys_modify_freq (nodupKeys_modify_freq nd4 _ _) _ _
      have hne₁ : ∀ k kl, dictGet st₁.transactions.data k = some kl → kl ≠ [] := by
        intro k kl hkl
        rw [hdata₁ k] at hkl
        by_cases hkk : k₀ = k
        · rw [if_pos hkk] at hkl
          by_cases hll : l = []
          · rw [if_pos hll] at hkl
            cases hkl
          · rw [if_neg hll] at hkl
            cases hkl
            exact hll
        · rw [if_neg hkk] at hkl
          exact hne k kl hkl
      have hlen₁ : ∀ k, (histGet st₁ k).length = countTouch st₁ k + (if k ∈ P' then 1 else 0) := by
        intro k
        have hct : countTouch st₁ k = countTouch st k := by
          unfold countTouch
          rw [hst₁]
        rw [hhist₁ k, hct]
        by_cases hkk : k₀ = k
        · subst hkk
          rw [if_pos rfl, if_neg hk₀P']
          have := hlen k₀
          simp only [List.mem_cons, true_or, if_pos] at this
          rw [hl, List.length_dropLast]
          omega
        · rw [if_neg hkk]
          have := hlen k
          have hmemiff : (k ∈ k₀ :: P') ↔ k ∈ P' := by
            simp only [List.mem_cons]
            constructor
            · rintro (h | h)
              · exact absurd h.symm hkk
              · exact h
            · intro h; exact Or.inr h
          rw [if_congr hmemiff rfl rfl] at this
          exact this
      obtain ⟨s', hfold, hdb, hstk, a1, a2, a3, a4, a5⟩ := ih st₁ hP' hnd₁ hndf₁ hne₁ hlen₁
      refine ⟨s', ?_, ?_, ?_, a1, a2, a3, a4, ?_⟩
      · rw [List.foldlM_cons, hstep]
        exact hfold
      · rw [hdb, hst₁]
      · rw [hstk, hst₁]
      · intro k hk
        have hkk₀ : ¬ k₀ = k := by
          intro hh
          exact hk (by rw [← hh]; simp)
        have hkP' : k ∉ P' := fun hh => hk (List.mem_cons_of_mem _ hh)
        rw [a5 k hkP', hdata₁ k, if_neg hkk₀]

theorem wf_clear {s : Database} (hwf : WF s) : WF (TransactionHandler.clear s) := by
  refine ⟨hwf.ndStore, hwf.ndStoreF, ?_, ?_, ?_, ?_, ?_, ?_⟩
  · simp [TransactionHandler.clear, NodupKeys, keysOf]
  · simp [TransactionHandler.clear, NodupKeys, keysOf]
  · intro T hT
    simp [TransactionHandler.clear] at hT
  · intro k kl hkl
    simp [TransactionHandler.clear, dictGet] at hkl
  · intro k
    show (histGet _ k).length = countTouch _ k
    simp [histGet, countTouch, TransactionHandler.clear, dictGet]
  · intro _
    exact ⟨rfl, rfl⟩

theorem wf_rollback {s s' : Database} (hwf : WF s)
    (h : (Database.rollback s).1 = some s') : WF s' := by
  by_cases hstack : s.transactions_opened = []
  · rw [db_rollback_inactive hstack] at h
    cases h
    exact hwf
  · rw [db_rollback_active hstack] at h
    cases hs : s.transactions_opened with
    | nil => exact absurd hs hstack
    | cons latest rest =>
        cases hrest : rest with
        | nil =>
            rw [hrest] at hs
            rw [th_rollback_one_eq hs] at h
            cases h
            exact wf_clear hwf
        | cons r rs =>
            have hrne : rest ≠ [] := by rw [hrest]; simp
            rw [th_rollback_multi_eq hs hrne] at h
            have hndl : latest.Nodup := hwf.ndTouched latest (by rw [hs]; simp)
            have hlenX : ∀ k,
                (histGet { s with transactions_opened := rest } k).length =
                countTouch { s with transactions_opened := rest } k +
                  (if k ∈ latest then 1 else 0) := by
              intro k
              have hlk := hwf.histLen k
              rw [countTouch_stack hs k] at hlk
              show (histGet s k).length = rest.countP _ + _
              rw [hlk]
            obtain ⟨t, hfold, hdb, hstk, b1, b2, b3, b4, _⟩ :=
              rollback_fold_wf latest { s with transactions_opened := rest }
                hndl hwf.ndHist hwf.ndTxnF hwf.histNonempty hlenX
            rw [hfold] at h
            cases h
            have hdb' : s'.database = s.database := hdb
            have hstk' : s'.transactions_opened = rest := hstk
            refine ⟨?_, ?_, b1, b2, ?_, b3, b4, ?_⟩
            · rw [hdb']
              exact hwf.ndStore
            · rw [hdb']
              exact hwf.ndStoreF
            · intro T hT
              rw [hstk'] at hT
              exact hwf.ndTouched T (by rw [hs]; exact List.mem_cons_of_mem _ hT)
            · intro hcontra
              rw [hstk', hrest] at hcontra
              simp at hcontra

theorem wf_commit {s s' : Database} (hwf : WF s)
    (h : (Database.commit s).1 = some s') : WF s' := by
  by_cases hstack : s.transactions_opened = []
  · rw [db_commit_inactive hstack] at h
    cases h
    exact hwf
  · rw [db_commit_active hstack] at h
    obtain ⟨t, hc, htr, hto, hnd, hndf, _, _⟩ :=
      th_commit_desc hstack hwf.ndStore hwf.ndStoreF hwf.ndHist hwf.ndTxnF
        hwf.histNonempty
    rw [hc] at h
    cases h
    have htrd : s'.transactions.data = [] := by rw [htr]
    have htrf : s'.transactions.values_freq = [] := by rw [htr]
    refine ⟨hnd, hndf, ?_, ?_, ?_, ?_, ?_, fun _ => ⟨htrd, htrf⟩⟩
    · rw [htrd]
      simp [NodupKeys, keysOf]
    · rw [htrf]
      simp [NodupKeys, keysOf]
    · intro T hT
      rw [hto] at hT
      cases hT
    · intro k kl hkl
      rw [htrd] at hkl
      simp [dictGet] at hkl
    · intro k
      show (histGet _ k).length = countTouch _ k
      unfold histGet countTouch
      rw [htrd, hto]
      simp [dictGet]

theorem wf_step {s s' : Database} {op : Op} (hwf : WF s)
    (h : applyOp s op = some s') : WF s' := by
  cases op with
  | set k v => exact wf_set hwf h
  | get _ => cases h; exact hwf
  | unset k => exact wf_unset hwf h
  | numEqualTo _ => cases h; exact hwf
  | begin => cases h; exact wf_begin hwf
  | rollback => exact wf_rollback hwf h
  | commit => exact wf_commit hwf h

theorem wf_dbInit : WF dbInit := by
  refine ⟨?_, ?_, ?_, ?_, ?_, ?_, ?_, ?_⟩ <;>
    simp [dbInit, NodupKeys, keysOf, dictGet, histGet, countTouch]

theorem wf_runOps {ops : List Op} :
    ∀ {s s' : Database}, WF s → runOps ops s = some s' → WF s' := by
  induction ops with
  | nil =>
      intro s s' hwf h
      cases h
      exact hwf
  | cons op rest ih =>
      intro s s' hwf h
      unfold runOps at h
      cases happ : applyOp s op with
      | none => rw [happ] at h; cases h
      | some s₁ =>
          rw [happ] at h
          exact ih (wf_step hwf happ) h

theorem wf_reachable {s : Database} (h : Reachable s) : WF s := by
  induction h with
  | init => exact wf_dbInit
  | step _ happ ih => exact wf_step ih happ

theorem reachable_runOps {ops : List Op} :
    ∀ {s s' : Database}, Reachable s → runOps ops s = some s' → Reachable s' := by
  induction ops with
  | nil =>
      intro s s' hr h
      cases h
      exact hr
  | cons op rest ih =>
      intro s s' hr h
      unfold runOps at h
      cases happ : applyOp s op with
      | none => rw [happ] at h; cases h
      | some s₁ =>
          rw [happ] at h
          exact ih (Reachable.step hr happ) h

/-- Claim C8: in every reachable state each key's aggregate history length
equals the number of open layers that touched it, and a transactional `set`
or `unset` of a key already touched by the current layer overwrites the
last history entry in place (same length) instead of appending. -/
theorem history_discipline (s : Database) (hreach : Reachable s) :
    (∀ k, (histGet s k).length = countTouch s k) ∧
    (∀ key v s' latest rest, ∀ old : Option String,
      s.transactions_opened = latest :: rest → key ∈ latest →
      TransactionHandler.set s key old v = some s' →
      histGet s' key = (histGet s key).dropLast ++ [some v] ∧
      (histGet s' key).length = (histGet s key).length) ∧
    (∀ key ov s' latest rest,
      s.transactions_opened = latest :: rest → key ∈ latest →
      TransactionHandler.unset s key (some ov) = some s' →
      histGet s' key = (histGet s key).dropLast ++ [none] ∧
      (histGet s' key).length = (histGet s key).length) := by
  have hwf := wf_reachable hreach
  refine ⟨hwf.histLen, ?_, ?_⟩
  · intro key v s' latest rest old hs hmem h
    have hne := histGet_ne_of_touched hwf hs hmem
    have hpos : 0 < (histGet s key).length := List.length_pos.mpr hne
    rw [th_set_touched_eq _ _ hs hmem hne] at h
    cases h
    rw [histGet_set_state rfl key, if_pos rfl]
    refine ⟨rfl, ?_⟩
    simp only [List.length_append, List.length_dropLast, List.length_cons, List.length_nil]
    omega
  · intro key ov s' latest rest hs hmem h
    have hne := histGet_ne_of_touched hwf hs hmem
    have hpos : 0 < (histGet s key).length := List.length_pos.mpr hne
    rw [th_unset_touched_eq _ hs hmem hne] at h
    cases h
    rw [histGet_set_state rfl key, if_pos rfl]
    refine ⟨rfl, ?_⟩
    simp only [List.length_append, List.length_dropLast, List.length_cons, List.length_nil]
    omega

/-- Claim C8 witness: the state after `BEGIN; SET a 1` is reachable and
satisfies the history-length invariant; overwriting the touched key `a`
keeps its history at one entry. -/
theorem history_discipline_witness :
    Reachable exTxnState ∧
    (∀ k, (histGet exTxnState k).length = countTouch exTxnState k) ∧
    (∀ s', TransactionHandler.set exTxnState "a" (some "1") "2" = some s' →
      histGet s' "a" = [some "2"]) := by
  have hreach : Reachable exTxnState :=
    reachable_runOps Reachable.init
      (show runOps [Op.begin, Op.set "a" "1"] dbInit = some exTxnState from rfl)
  refine ⟨hreach, (history_discipline exTxnState hreach).1, ?_⟩
  intro s' h
  have := ((history_discipline exTxnState hreach).2.1 "a" "2" s' ["a"] [] (some "1")
    rfl (by simp) h).1
  rw [this]
  rfl

/-- Claim C10: in every reachable state no aggregate history record is an
empty list, and the stack's `get` reports found exactly when some open
layer has written the key. -/
theorem stack_get_found (s : Database) (hreach : Reachable s) :
    (∀ k, dictGet s.transactions.data k ≠ some []) ∧
    (∀ k, (TransactionHandler.get s k).2 = true ↔
      ∃ T ∈ s.transactions_opened, k ∈ T) := by
  have hwf := wf_reachable hreach
  constructor
  · intro k hcontra
    exact hwf.histNonempty k [] hcontra rfl
  · intro k
    have hiff1 : (TransactionHandler.get s k).2 = true ↔ histGet s k ≠ [] := by
      unfold TransactionHandler.get
      cases hh : (histGet s k).getLast? with
      | some e =>
          simp only [hh]
          simp only [true_iff]
          intro hnil
          rw [hnil] at hh
          cases hh
      | none => simp [hh, List.getLast?_eq_none_iff.mp hh]
    rw [hiff1]
    have hlen := hwf.histLen k
    constructor
    · intro hne
      have hpos : 0 < (histGet s k).length := List.length_pos.mpr hne
      rw [hlen] at hpos
      unfold countTouch at hpos
      obtain ⟨T, hT, hkT⟩ := List.countP_pos_iff.mp hpos
      exact ⟨T, hT, of_decide_eq_true hkT⟩
    · rintro ⟨T, hT, hkT⟩
      have hpos : 0 < countTouch s k := by
        unfold countTouch
        exact List.countP_pos_iff.mpr ⟨T, hT, decide_eq_true hkT⟩
      rw [← hlen] at hpos
      exact List.length_pos.mp hpos

/-- Claim C10 witness: in the reachable state after `BEGIN; SET a 1` the
key `a` is found and the key `b` is not. -/
theorem stack_get_found_witness :
    Reachable exTxnState ∧
    ((TransactionHandler.get exTxnState "a").2 = true ↔
      ∃ T ∈ exTxnState.transactions_opened, "a" ∈ T) := by
  have hreach : Reachable exTxnState :=
    reachable_runOps Reachable.init
      (show runOps [Op.begin, Op.set "a" "1"] dbInit = some exTxnState from rfl)
  exact ⟨hreach, (stack_get_found exTxnState hreach).2 "a"⟩

/-- Claim C4 as amended: with at least one transaction open, commit takes
every key's last aggregate-history entry; the key is removed from the store
when that entry is the deleted marker **or the empty string** (the code
tests Python truthiness, source line 465), and set to the entry otherwise;
the aggregate frequency delta is folded into the store's index entry by
entry; and the stack is cleared, so a subsequent rollback or commit reports
no transaction. -/
theorem commit_semantics (s : Database) (hwf : WF s)
    (hstack : s.transactions_opened ≠ []) :
    ∃ s', (Database.commit s).1 = some s' ∧ (Database.commit s).2 = true ∧
      (∀ k kl, dictGet s.transactions.data k = some kl →
        dictGet s'.database.data k =
          if lastD kl = none ∨ lastD kl = some "" then none else lastD kl) ∧
      (∀ k, dictGet s.transactions.data k = none →
        dictGet s'.database.data k = dictGet s.database.data k) ∧
      (∀ v, freqD s'.database.values_freq v =
        freqD s.database.values_freq v + freqD s.transactions.values_freq v) ∧
      s'.transactions.data = [] ∧ s'.transactions.values_freq = [] ∧
      s'.transactions_opened = [] ∧
      (Database.rollback s').2 = false ∧ (Database.commit s').2 = false := by
  obtain ⟨t, hc, htr, hto, _, _, hlook, hfreq⟩ :=
    th_commit_desc hstack hwf.ndStore hwf.ndStoreF hwf.ndHist hwf.ndTxnF
      hwf.histNonempty
  rw [db_commit_active hstack]
  refine ⟨t, by rw [hc], rfl, ?_, ?_, hfreq, by rw [htr], by rw [htr], hto, ?_, ?_⟩
  · intro k kl hkl
    have hl := hlook k
    rw [hkl] at hl
    dsimp only at hl
    rw [hl]
    cases hld : lastD kl with
    | none => simp [pyTruthy]
    | some w =>
        by_cases hw : w = ""
        · subst hw
          simp [pyTruthy]
        · simp [pyTruthy, hw]
  · intro k hk
    have hl := hlook k
    rw [hk] at hl
    exact hl
  · rw [db_rollback_inactive hto]
  · rw [db_commit_inactive hto]

/-- Claim C4 witness: committing the state reached by `BEGIN; SET a 1`
writes `a := 1` into the store, folds the delta, clears the stack, and
further rollback and commit report no transaction. -/
theorem commit_semantics_witness :
    WF exTxnState ∧ exTxnState.transactions_opened ≠ [] ∧
    (∃ s', (Database.commit exTxnState).1 = some s' ∧
      (Database.commit exTxnState).2 = true ∧
      (∀ k kl, dictGet exTxnState.transactions.data k = some kl →
        dictGet s'.database.data k =
          if lastD kl = none ∨ lastD kl = some "" then none else lastD kl) ∧
      (∀ k, dictGet exTxnState.transactions.data k = none →
        dictGet s'.database.data k = dictGet exTxnState.database.data k) ∧
      (∀ v, freqD s'.database.values_freq v =
        freqD exTxnState.database.values_freq v +
          freqD exTxnState.transactions.values_freq v) ∧
      s'.transactions.data = [] ∧ s'.transactions.values_freq = [] ∧
      s'.transactions_opened = [] ∧
      (Database.rollback s').2 = false ∧ (Database.commit s').2 = false) := by
  have hwf : WF exTxnState :=
    @wf_runOps [Op.begin, Op.set "a" "1"] dbInit exTxnState wf_dbInit rfl
  have hne : exTxnState.transactions_opened ≠ [] := by
    simp [exTxnState]
  exact ⟨hwf, hne, commit_semantics exTxnState hwf hne⟩

/-! ### Machinery for claim C2: rollback as a perfect inverse -/

theorem freqD_decinc {m : List (String × Int)} (h : NodupKeys m)
    (pv ev : Option String) (w : String) :
    freqD (Data.decrease_freq (Data.increase_freq m pv) ev) w =
      freqD m w + (if pv = some w then 1 else 0) - (if ev = some w then 1 else 0) := by
  unfold Data.increase_freq Data.decrease_freq
  rw [freqD_modify_opt (nodupKeys_modify_freq h pv 1) ev w (-1),
    freqD_modify_opt h pv w 1]
  by_cases h1 : pv = some w <;> by_cases h2 : ev = some w <;> (simp [h1, h2]; try omega)

theorem deltaSum_congr {s₀ t t' : Database} {T : List String}
    (h : ∀ k, k ∈ T → histGet t' k = histGet t k) (v : String) :
    deltaSum s₀ t' T v = deltaSum s₀ t T v := by
  unfold deltaSum
  congr 1
  apply List.map_congr_left
  intro k hk
  unfold entryInd
  rw [h k hk]

theorem deltaSum_update {s₀ t t' : Database} {T : List String} {key : String}
    (hT : T.Nodup) (hkey : key ∈ T)
    (hsame : ∀ k, k ≠ key → histGet t' k = histGet t k) (v : String) :
    deltaSum s₀ t' T v = deltaSum s₀ t T v + (entryInd t' key v - entryInd t key v) := by
  induction T with
  | nil => cases hkey
  | cons k₀ T' ih =>
      have hk₀T' : k₀ ∉ T' := (List.nodup_cons.mp hT).1
      have hT' : T'.Nodup := (List.nodup_cons.mp hT).2
      unfold deltaSum at *
      simp only [List.map_cons, List.sum_cons]
      rcases List.mem_cons.mp hkey with hk | hk
      · subst hk
        have htail : T'.map (fun k => entryInd t' k v - mergedInd s₀ k v) =
            T'.map (fun k => entryInd t k v - mergedInd s₀ k v) := by
          apply List.map_congr_left
          intro k hkmem
          have hne : k ≠ key := fun hh => hk₀T' (hh ▸ hkmem)
          unfold entryInd
          rw [hsame k hne]
        rw [htail]
        omega
      · have hne : k₀ ≠ key := fun hh => hk₀T' (hh ▸ hk)
        have hhead : entryInd t' k₀ v = entryInd t k₀ v := by
          unfold entryInd
          rw [hsame k₀ hne]
        rw [hhead, ih hT' hk]
        omega

theorem deltaSum_append_one {s₀ t : Database} {T : List String} {key : String} (v : String) :
    deltaSum s₀ t (T ++ [key]) v =
      deltaSum s₀ t T v + (entryInd t key v - mergedInd s₀ key v) := by
  unfold deltaSum
  rw [List.map_append, List.sum_append]
  simp

theorem mergedAux_concat {t : Database} {k : String} {l : List (Option String)}
    {e : Option String} (h : histGet t k = l ++ [e]) : mergedAux t k = e := by
  unfold mergedAux
  rw [h, List.getLast?_concat]

theorem entryInd_concat {t : Database} {k : String} {l : List (Option String)}
    {e : Option String} (h : histGet t k = l ++ [e]) (v : String) :
    entryInd t k v = if e = some v then 1 else 0 := by
  unfold entryInd
  rw [h, List.getLast?_concat]
  by_cases he : e = some v <;> simp [he]

theorem rinv_begin {s₀ : Database} (hwf : WF s₀) : RInv s₀ (Database.begin s₀) [] := by
  refine ⟨rfl, rfl, List.nodup_nil, fun k _ => rfl, fun k hk => absurd hk (by simp),
    ?_, hwf.ndHist, hwf.ndTxnF⟩
  intro v
  unfold deltaSum
  simp only [List.map_nil, List.sum_nil, add_zero]
  rfl

theorem rinv_set {s₀ t : Database} {T : List String} {key v : String}
    (hri : RInv s₀ t T) :
    ∃ t' T', Database.set t key v = some t' ∧ RInv s₀ t' T' := by
  have hstack : t.transactions_opened ≠ [] := by rw [hri.stack_eq]; simp
  by_cases hold : Database.get t key = some v
  · exact ⟨t, T, db_set_self hold, hri⟩
  · have hs : t.transactions_opened = T :: s₀.transactions_opened := hri.stack_eq
    by_cases hmem : key ∈ T
    · obtain ⟨e, he⟩ := hri.hist_in key hmem
      have hne : histGet t key ≠ [] := by rw [he]; simp
      have holde : Database.get t key = e := by
        rw [db_get_active hstack]
        exact mergedAux_concat he
      have hdrop : (histGet t key).dropLast = histGet s₀ key := by
        rw [he, List.dropLast_concat]
      set t₁ : Database :=
        ⟨t.database,
         ⟨dictSet t.transactions.data key ((histGet t key).dropLast ++ [some v]),
          Data.increase_freq (Data.decrease_freq t.transactions.values_freq
            (Database.get t key)) (some v)⟩,
         T :: s₀.transactions_opened⟩ with ht₁
      have hhist' : ∀ k, histGet t₁ k =
          if key = k then histGet s₀ key ++ [some v] else histGet t k := by
        intro k
        rw [ht₁, histGet_set_state rfl k, hdrop]
      have hndf' : NodupKeys t₁.transactions.values_freq := by
        rw [ht₁]
        show NodupKeys (Data.increase_freq (Data.decrease_freq
          t.transactions.values_freq (Database.get t key)) (some v))
        exact nodupKeys_incdec hri.ndTxnF _ _
      have hfr : ∀ w, freqD t₁.transactions.values_freq w =
          freqD t.transactions.values_freq w -
            (if Database.get t key = some w then 1 else 0) +
            (if (some v : Option String) = some w then 1 else 0) := by
        intro w
        rw [ht₁]
        show freqD (Data.increase_freq (Data.decrease_freq
          t.transactions.values_freq (Database.get t key)) (some v)) w = _
        exact freqD_incdec hri.ndTxnF _ _ w
      refine ⟨t₁, T, ?_, ?_⟩
      · rw [db_set_txn_eq hstack hold,
          th_set_touched_eq (Database.get t key) v hs hmem hne, ht₁]
      refine ⟨hri.store_eq, by rw [ht₁], hri.tnodup, ?_, ?_, ?_, ?_, hndf'⟩
      · intro k hk
        have hkk : ¬ key = k := fun hh => hk (hh ▸ hmem)
        rw [ht₁]
        dsimp only
        rw [dictGet_dictSet, if_neg hkk]
        exact hri.hist_out k hk
      · intro k hk
        rw [hhist' k]
        by_cases hkk : key = k
        · subst hkk
          rw [if_pos rfl]
          exact ⟨some v, rfl⟩
        · rw [if_neg hkk]
          exact hri.hist_in k hk
      · intro w
        have hsame₁ : ∀ k, k ≠ key → histGet t₁ k = histGet t k := by
          intro k hk
          rw [hhist' k, if_neg (fun hh => hk hh.symm)]
        have hds : deltaSum s₀ t₁ T w =
            deltaSum s₀ t T w + (entryInd t₁ key w - entryInd t key w) :=
          deltaSum_update hri.tnodup hmem hsame₁ w
        have he1 : entryInd t key w = if e = some w then 1 else 0 := entryInd_concat he w
        have he2 : entryInd t₁ key w = if (some v : Option String) = some w then 1 else 0 :=
          entryInd_concat (by rw [hhist' key, if_pos rfl]) w
        rw [hfr w, hri.freq_eq w, holde, hds, he1, he2]
        omega
      · rw [ht₁]
        exact nodupKeys_dictSet _ _ hri.ndHist
    · have hist_key : histGet t key = histGet s₀ key := by
        unfold histGet
        rw [hri.hist_out key hmem]
      have holdm : Database.get t key = mergedAux s₀ key := by
        rw [db_get_active hstack]
        unfold mergedAux
        rw [hist_key, hri.store_eq]
      set t₁ : Database :=
        ⟨t.database,
         ⟨dictSet t.transactions.data key (histGet t key ++ [some v]),
          Data.increase_freq (Data.decrease_freq t.transactions.values_freq
            (Database.get t key)) (some v)⟩,
         (T ++ [key]) :: s₀.transactions_opened⟩ with ht₁
      have hhist' : ∀ k, histGet t₁ k =
          if key = k then histGet s₀ key ++ [some v] else histGet t k := by
        intro k
        rw [ht₁, histGet_set_state rfl k, hist_key]
      have hndf' : NodupKeys t₁.transactions.values_freq := by
        rw [ht₁]
        show NodupKeys (Data.increase_freq (Data.decrease_freq
          t.transactions.values_freq (Database.get t key)) (some v))
        exact nodupKeys_incdec hri.ndTxnF _ _
      have hfr : ∀ w, freqD t₁.transactions.values_freq w =
          freqD t.transactions.values_freq w -
            (if Database.get t key = some w then 1 else 0) +
            (if (some v : Option String) = some w then 1 else 0) := by
        intro w
        rw [ht₁]
        show freqD (Data.increase_freq (Data.decrease_freq
          t.transactions.values_freq (Database.get t key)) (some v)) w = _
        exact freqD_incdec hri.ndTxnF _ _ w
      refine ⟨t₁, T ++ [key], ?_, ?_⟩
      · rw [db_set_txn_eq hstack hold,
          th_set_fresh_eq (Database.get t key) v hs hmem, ht₁]
      refine ⟨hri.store_eq, by rw [ht₁], ?_, ?_, ?_, ?_, ?_, hndf'⟩
      · simp [List.nodup_append, hri.tnodup, hmem]
      · intro k hk
        have hkT : k ∉ T := fun hh => hk (by simp [hh])
        have hkk : ¬ key = k := fun hh => hk (by simp [hh])
        rw [ht₁]
        dsimp only
        rw [dictGet_dictSet, if_neg hkk]
        exact hri.hist_out k hkT
      · intro k hk
        rw [hhist' k]
        by_cases hkk : key = k
        · subst hkk
          rw [if_pos rfl]
          exact ⟨some v, rfl⟩
        · rw [if_neg hkk]
          rcases List.mem_append.mp hk with hkT | hkone
          · exact hri.hist_in k hkT
          · exact absurd (List.mem_singleton.mp hkone).symm hkk
      · intro w
        have hsame₁ : ∀ k, k ∈ T → histGet t₁ k = histGet t k := by
          intro k hk
          have hkk : ¬ key = k := fun hh => hmem (hh ▸ hk)
          rw [hhist' k, if_neg hkk]
        have hcg : deltaSum s₀ t₁ T w = deltaSum s₀ t T w := deltaSum_congr hsame₁ w
        have he2 : entryInd t₁ key w = if (some v : Option String) = some w then 1 else 0 :=
          entryInd_concat (by rw [hhist' key, if_pos rfl]) w
        rw [hfr w, hri.freq_eq w, holdm, deltaSum_append_one, hcg, he2]
        unfold mergedInd
        omega
      · rw [ht₁]
        exact nodupKeys_dictSet _ _ hri.ndHist

theorem rinv_unset {s₀ t : Database} {T : List String} {key : String}
    (hri : RInv s₀ t T) :
    ∃ t' T', Database.unset t key = some t' ∧ RInv s₀ t' T' := by
  have hstack : t.transactions_opened ≠ [] := by rw [hri.stack_eq]; simp
  have hs : t.transactions_opened = T :: s₀.transactions_opened := hri.stack_eq
  cases hov : Database.get t key with
  | none =>
      refine ⟨t, T, ?_, hri⟩
      rw [db_unset_txn_eq hstack, hov, th_unset_none_eq]
  | some ov =>
      by_cases hmem : key ∈ T
      · obtain ⟨e, he⟩ := hri.hist_in key hmem
        have hne : histGet t key ≠ [] := by rw [he]; simp
        have holde : Database.get t key = e := by
          rw [db_get_active hstack]
          exact mergedAux_concat he
        have heov : e = some ov := by rw [← holde, hov]
        have hdrop : (histGet t key).dropLast = histGet s₀ key := by
          rw [he, List.dropLast_concat]
        set t₁ : Database :=
          ⟨t.database,
           ⟨dictSet t.transactions.data key ((histGet t key).dropLast ++ [none]),
            Data.decrease_freq t.transactions.values_freq (some ov)⟩,
           T :: s₀.transactions_opened⟩ with ht₁
        have hhist' : ∀ k, histGet t₁ k =
            if key = k then histGet s₀ key ++ [none] else histGet t k := by
          intro k
          rw [ht₁, histGet_set_state rfl k, hdrop]
        have hndf' : NodupKeys t₁.transactions.values_freq := by
          rw [ht₁]
          show NodupKeys (Data.decrease_freq t.transactions.values_freq (some ov))
          exact nodupKeys_modify_freq hri.ndTxnF _ _
        have hfr : ∀ w, freqD t₁.transactions.values_freq w =
            freqD t.transactions.values_freq w -
              (if (some ov : Option String) = some w then 1 else 0) := by
          intro w
          rw [ht₁]
          show freqD (Data.decrease_freq t.transactions.values_freq (some ov)) w = _
          exact freqD_dec hri.ndTxnF _ w
        refine ⟨t₁, T, ?_, ?_⟩
        · rw [db_unset_txn_eq hstack, hov, th_unset_touched_eq ov hs hmem hne, ht₁]
        refine ⟨hri.store_eq, by rw [ht₁], hri.tnodup, ?_, ?_, ?_, ?_, hndf'⟩
        · intro k hk
          have hkk : ¬ key = k := fun hh => hk (hh ▸ hmem)
          rw [ht₁]
          dsimp only
          rw [dictGet_dictSet, if_neg hkk]
          exact hri.hist_out k hk
        · intro k hk
          rw [hhist' k]
          by_cases hkk : key = k
          · subst hkk
            rw [if_pos rfl]
            exact ⟨none, rfl⟩
          · rw [if_neg hkk]
            exact hri.hist_in k hk
        · intro w
          have hsame₁ : ∀ k, k ≠ key → histGet t₁ k = histGet t k := by
            intro k hk
            rw [hhist' k, if_neg (fun hh => hk hh.symm)]
          have hds : deltaSum s₀ t₁ T w =
              deltaSum s₀ t T w + (entryInd t₁ key w - entryInd t key w) :=
            deltaSum_update hri.tnodup hmem hsame₁ w
          have he1 : entryInd t key w = if e = some w then 1 else 0 := entryInd_concat he w
          have he2 : entryInd t₁ key w = if (none : Option String) = some w then 1 else 0 :=
            entryInd_concat (by rw [hhist' key, if_pos rfl]) w
          rw [hfr w, hri.freq_eq w, hds, he1, he2, heov]
          simp only [reduceCtorEq, if_false]
          omega
        · rw [ht₁]
          exact nodupKeys_dictSet _ _ hri.ndHist
      · have hist_key : histGet t key = histGet s₀ key := by
          unfold histGet
          rw [hri.hist_out key hmem]
        have holdm : Database.get t key = mergedAux s₀ key := by
          rw [db_get_active hstack]
          unfold mergedAux
          rw [hist_key, hri.store_eq]
        have hmov : mergedAux s₀ key = some ov := by rw [← holdm, hov]
        set t₁ : Database :=
          ⟨t.database,
           ⟨dictSet t.transactions.data key (histGet t key ++ [none]),
            Data.decrease_freq t.transactions.values_freq (some ov)⟩,
           (T ++ [key]) :: s₀.transactions_opened⟩ with ht₁
        have hhist' : ∀ k, histGet t₁ k =
            if key = k then histGet s₀ key ++ [none] else histGet t k := by
          intro k
          rw [ht₁, histGet_set_state rfl k, hist_key]
        have hndf' : NodupKeys t₁.transactions.values_freq := by
          rw [ht₁]
          show NodupKeys (Data.decrease_freq t.transactions.values_freq (some ov))
          exact nodupKeys_modify_freq hri.ndTxnF _ _
        have hfr : ∀ w, freqD t₁.transactions.values_freq w =
            freqD t.transactions.values_freq w -
              (if (some ov : Option String) = some w then 1 else 0) := by
          intro w
          rw [ht₁]
          show freqD (Data.decrease_freq t.transactions.values_freq (some ov)) w = _
          exact freqD_dec hri.ndTxnF _ w
        refine ⟨t₁, T ++ [key], ?_, ?_⟩
        · rw [db_unset_txn_eq hstack, hov, th_unset_fresh_eq ov hs hmem, ht₁]
        refine ⟨hri.store_eq, by rw [ht₁], ?_, ?_, ?_, ?_, ?_, hndf'⟩
        · simp [List.nodup_append, hri.tnodup, hmem]
        · intro k hk
          have hkT : k ∉ T := fun hh => hk (by simp [hh])
          have hkk : ¬ key = k := fun hh => hk (by simp [hh])
          rw [ht₁]
          dsimp only
          rw [dictGet_dictSet, if_neg hkk]
          exact hri.hist_out k hkT
        · intro k hk
          rw [hhist' k]
          by_cases hkk : key = k
          · subst hkk
            rw [if_pos rfl]
            exact ⟨none, rfl⟩
          · rw [if_neg hkk]
            rcases List.mem_append.mp hk with hkT | hkone
            · exact hri.hist_in k hkT
            · exact absurd (List.mem_singleton.mp hkone).symm hkk
        · intro w
          have hsame₁ : ∀ k, k ∈ T → histGet t₁ k = histGet t k := by
            intro k hk
            have hkk : ¬ key = k := fun hh => hmem (hh ▸ hk)
            rw [hhist' k, if_neg hkk]
          have hcg : deltaSum s₀ t₁ T w = deltaSum s₀ t T w := deltaSum_congr hsame₁ w
          have he2 : entryInd t₁ key w = if (none : Option String) = some w then 1 else 0 :=
            entryInd_concat (by rw [hhist' key, if_pos rfl]) w
          rw [hfr w, hri.freq_eq w, deltaSum_append_one, hcg, he2]
          unfold mergedInd
          rw [hmov]
          simp only [reduceCtorEq, if_false]
          omega
        · rw [ht₁]
          exact nodupKeys_dictSet _ _ hri.ndHist

theorem rinv_run {s₀ : Database} (ops : List Op) :
    ∀ (t : Database) (T : List String), (∀ op ∈ ops, isDataOp op = true) →
    RInv s₀ t T → ∃ t' T', runOps ops t = some t' ∧ RInv s₀ t' T' := by
  induction ops with
  | nil => exact fun t T _ hri => ⟨t, T, rfl, hri⟩
  | cons op rest ih =>
      intro t T hops hri
      have hop := hops op (by simp)
      have hrest : ∀ op ∈ rest, isDataOp op = true :=
        fun o ho => hops o (List.mem_cons_of_mem _ ho)
      cases op with
      | set k v =>
          obtain ⟨t₁, T₁, hstep, hri₁⟩ := @rinv_set s₀ t T k v hri
          obtain ⟨t', T', hrun, hri'⟩ := ih t₁ T₁ hrest hri₁
          exact ⟨t', T', by unfold runOps; rw [show applyOp t (Op.set k v) = some t₁ from hstep]; exact hrun, hri'⟩
      | get k =>
          obtain ⟨t', T', hrun, hri'⟩ := ih t T hrest hri
          exact ⟨t', T', by unfold runOps; rw [show applyOp t (Op.get k) = some t from rfl]; exact hrun, hri'⟩
      | unset k =>
          obtain ⟨t₁, T₁, hstep, hri₁⟩ := @rinv_unset s₀ t T k hri
          obtain ⟨t', T', hrun, hri'⟩ := ih t₁ T₁ hrest hri₁
          exact ⟨t', T', by unfold runOps; rw [show applyOp t (Op.unset k) = some t₁ from hstep]; exact hrun, hri'⟩
      | numEqualTo v =>
          obtain ⟨t', T', hrun, hri'⟩ := ih t T hrest hri
          exact ⟨t', T', by unfold runOps; rw [show applyOp t (Op.numEqualTo v) = some t from rfl]; exact hrun, hri'⟩
      | begin => cases hop
      | rollback => cases hop
      | commit => cases hop

theorem deltaSum_cons {s₀ t : Database} {k₀ : String} {P : List String} (v : String) :
    deltaSum s₀ t (k₀ :: P) v =
      (entryInd t k₀ v - mergedInd s₀ k₀ v) + deltaSum s₀ t P v := by
  unfold deltaSum
  simp

theorem rollback_fold_restore (P : List String) :
    ∀ (st s₀ : Database), P.Nodup →
    st.database = s₀.database →
    NodupKeys st.transactions.data → NodupKeys st.transactions.values_freq →
    (∀ k, k ∉ P → dictGet st.transactions.data k = dictGet s₀.transactions.data k) →
    (∀ k, k ∈ P → ∃ e, histGet st k = histGet s₀ k ++ [e]) →
    (∀ k l, dictGet s₀.transactions.data k = some l → l ≠ []) →
    (∀ v, freqD st.transactions.values_freq v =
      freqD s₀.transactions.values_freq v + deltaSum s₀ st P v) →
    ∃ r, P.foldlM rollbackKey st = some r ∧
      r.database = st.database ∧ r.transactions_opened = st.transactions_opened ∧
      (∀ k, dictGet r.transactions.data k = dictGet s₀.transactions.data k) ∧
      (∀ v, freqD r.transactions.values_freq v = freqD s₀.transactions.values_freq v) := by
  induction P with
  | nil =>
      intro st s₀ _ _ _ _ hout _ _ hfreq
      refine ⟨st, rfl, rfl, rfl, fun k => hout k (by simp), fun v => ?_⟩
      have := hfreq v
      unfold deltaSum at this
      simpa using this
  | cons k₀ P' ih =>
      intro st s₀ hnd hdbeq ndH ndF hout hin hne₀ hfreq
      have hk₀P' : k₀ ∉ P' := (List.nodup_cons.mp hnd).1
      have hP' : P'.Nodup := (List.nodup_cons.mp hnd).2
      obtain ⟨e, he⟩ := hin k₀ (by simp)
      have hstne : histGet st k₀ ≠ [] := by rw [he]; simp
      have hdg : dictGet st.transactions.data k₀ = some (histGet s₀ k₀ ++ [e]) := by
        rw [← he]
        exact histGet_ne_nil_dictGet hstne
      have hstep := rollbackKey_eq hdg
      set prev : Option String :=
        (match (histGet s₀ k₀).getLast? with
         | some e' => e'
         | none => dictGet st.database.data k₀) with hprevdef
      have hprev : prev = mergedAux s₀ k₀ := by
        rw [hprevdef]
        unfold mergedAux
        cases hgl : (histGet s₀ k₀).getLast? with
        | some e' => rfl
        | none => rw [hdbeq]
      set st₁ : Database :=
        { database := st.database
          transactions :=
            { data :=
                if histGet s₀ k₀ = [] then
                  dictPop (dictSet st.transactions.data k₀ (histGet s₀ k₀)) k₀
                else dictSet st.transactions.data k₀ (histGet s₀ k₀)
              values_freq :=
                Data.decrease_freq
                  (Data.increase_freq st.transactions.values_freq prev) e }
          transactions_opened := st.transactions_opened } with hst₁
      have hdata₁ : ∀ k, dictGet st₁.transactions.data k =
          if k₀ = k then dictGet s₀.transactions.data k₀
          else dictGet st.transactions.data k := by
        intro k
        rw [hst₁]
        dsimp only
        by_cases hll : histGet s₀ k₀ = []
        · rw [if_pos hll]
          by_cases hkk : k₀ = k
          · subst hkk
            rw [if_pos rfl, dictGet_dictPop_self k₀ (nodupKeys_dictSet _ _ ndH)]
            cases hdg₀ : dictGet s₀.transactions.data k₀ with
            | none => rfl
            | some l =>
                have : l ≠ [] := hne₀ k₀ l hdg₀
                have : histGet s₀ k₀ = l := by unfold histGet; rw [hdg₀]; rfl
                rw [this] at hll
                exact absurd hll (hne₀ k₀ l hdg₀)
          · rw [if_neg hkk, dictGet_dictPop_ne _ _ _ hkk, dictGet_dictSet, if_neg hkk]
        · rw [if_neg hll, dictGet_dictSet]
          by_cases hkk : k₀ = k
          · subst hkk
            rw [if_pos rfl, if_pos rfl]
            rw [@histGet_ne_nil_dictGet s₀ k₀ (by exact hll)]
          · rw [if_neg hkk, if_neg hkk]
      have hhist₁ : ∀ k, k₀ ≠ k → histGet st₁ k = histGet st k := by
        intro k hkk
        unfold histGet
        rw [hdata₁ k, if_neg hkk]
      have hfr : ∀ w, freqD st₁.transactions.values_freq w =
          freqD st.transactions.values_freq w +
            (if prev = some w then 1 else 0) - (if e = some w then 1 else 0) := by
        intro w
        rw [hst₁]
        show freqD (Data.decrease_freq (Data.increase_freq
          st.transactions.values_freq prev) e) w = _
        exact freqD_decinc ndF prev e w
      have hfreq₁ : ∀ v, freqD st₁.transactions.values_freq v =
          freqD s₀.transactions.values_freq v + deltaSum s₀ st₁ P' v := by
        intro w
        have hds : deltaSum s₀ st₁ P' w = deltaSum s₀ st P' w := by
          apply deltaSum_congr
          intro k hk
          exact hhist₁ k (fun hh => hk₀P' (hh ▸ hk))
        have he1 : entryInd st k₀ w = if e = some w then 1 else 0 := entryInd_concat he w
        have hcons := @deltaSum_cons s₀ st k₀ P' w
        rw [hfr w, hfreq w, hcons, hds, he1, hprev]
        unfold mergedInd
        omega
      have hout₁ : ∀ k, k ∉ P' → dictGet st₁.transactions.data k =
          dictGet s₀.transactions.data k := by
        intro k hk
        rw [hdata₁ k]
        by_cases hkk : k₀ = k
        · rw [if_pos hkk, hkk]
        · rw [if_neg hkk]
          exact hout k (by
            intro hmem
            rcases List.mem_cons.mp hmem with hh | hh
            · exact hkk hh.symm
            · exact hk hh)
      have hin₁ : ∀ k, k ∈ P' → ∃ e', histGet st₁ k = histGet s₀ k ++ [e'] := by
        intro k hk
        rw [hhist₁ k (fun hh => hk₀P' (hh ▸ hk))]
        exact hin k (List.mem_cons_of_mem _ hk)
      have hndH₁ : NodupKeys st₁.transactions.data := by
        rw [hst₁]
        dsimp only
        by_cases hll : histGet s₀ k₀ = []
        · rw [if_pos hll]
          exact nodupKeys_dictPop _ (nodupKeys_dictSet _ _ ndH)
        · rw [if_neg hll]
          exact nodupKeys_dictSet _ _ ndH
      have hndF₁ : NodupKeys st₁.transactions.values_freq := by
        rw [hst₁]
        show NodupKeys (Data.decrease_freq (Data.increase_freq
          st.transactions.values_freq prev) e)
        exact nodupKeys_modify_freq (nodupKeys_modify_freq ndF _ _) _ _
      obtain ⟨r, hfold, hrdb, hrst, hrdata, hrfreq⟩ :=
        ih st₁ s₀ hP' hdbeq hndH₁ hndF₁ hout₁ hin₁ hne₀ hfreq₁
      refine ⟨r, ?_, hrdb, hrst, hrdata, hrfreq⟩
      rw [List.foldlM_cons, hstep]
      exact hfold

theorem rinv_rollback {s₀ t : Database} {T : List String}
    (hwf₀ : WF s₀) (hri : RInv s₀ t T) :
    ∃ r, TransactionHandler.rollback t = some r ∧
      r.database = s₀.database ∧ r.transactions_opened = s₀.transactions_opened ∧
      (∀ k, dictGet r.transactions.data k = dictGet s₀.transactions.data k) ∧
      (∀ v, freqD r.transactions.values_freq v = freqD s₀.transactions.values_freq v) := by
  cases hs₀ : s₀.transactions_opened with
  | nil =>
      have hstack : t.transactions_opened = [T] := by rw [hri.stack_eq, hs₀]
      refine ⟨TransactionHandler.clear t, th_rollback_one_eq hstack, hri.store_eq,
        rfl, ?_, ?_⟩
      · intro k
        have hd := (hwf₀.emptyStack hs₀).1
        show dictGet ([] : List (String × List (Option String))) k = _
        rw [hd]
      · intro v
        have hf := (hwf₀.emptyStack hs₀).2
        show freqD ([] : List (String × Int)) v = _
        rw [hf]
  | cons r₀ rs =>
      have hstack : t.transactions_opened = T :: r₀ :: rs := by rw [hri.stack_eq, hs₀]
      have hrne : (r₀ :: rs : List (List String)) ≠ [] := by simp
      obtain ⟨r, hfold, hrdb, hrst, hrdata, hrfreq⟩ :=
        rollback_fold_restore T { t with transactions_opened := r₀ :: rs } s₀
          hri.tnodup hri.store_eq hri.ndHist hri.ndTxnF hri.hist_out hri.hist_in
          hwf₀.histNonempty hri.freq_eq
      refine ⟨r, ?_, ?_, ?_, hrdata, hrfreq⟩
      · rw [th_rollback_multi_eq hstack hrne]
        exact hfold
      · rw [show r.database = t.database from hrdb]
        exact hri.store_eq
      · exact hrst

/-- Claim C2: starting from any well-formed state, a `BEGIN`, any sequence
of data operations (`get`/`set`/`unset`/`numEqualTo`) strictly inside the
block, and the matching `ROLLBACK` succeed and restore the merged view
exactly: every key's observable value and every value's observable count
equal those before the `BEGIN`. -/
theorem rollback_perfect_inverse (s₀ : Database) (hwf : WF s₀) (ops : List Op)
    (hops : ∀ op ∈ ops, isDataOp op = true) :
    ∃ t r, runOps ops (Database.begin s₀) = some t ∧
      (Database.rollback t).2 = true ∧ (Database.rollback t).1 = some r ∧
      (∀ k, Database.get r k = Database.get s₀ k) ∧
      (∀ v, Database.num_equal_to r v = Database.num_equal_to s₀ v) := by
  obtain ⟨t, T, hrun, hri⟩ := rinv_run ops (Database.begin s₀) [] hops (rinv_begin hwf)
  obtain ⟨r, hrb, hrdb, hrst, hrdata, hrfreq⟩ := rinv_rollback hwf hri
  have hstackt : t.transactions_opened ≠ [] := by rw [hri.stack_eq]; simp
  refine ⟨t, r, hrun, ?_, ?_, ?_, ?_⟩
  · rw [db_rollback_active hstackt]
  · rw [db_rollback_active hstackt]
    exact hrb
  · intro k
    by_cases hs₀e : s₀.transactions_opened = []
    · rw [db_get_stack_empty (by rw [hrst]; exact hs₀e) k, db_get_stack_empty hs₀e k,
        hrdb]
    · rw [db_get_active (by rw [hrst]; exact hs₀e) k, db_get_active hs₀e k]
      unfold mergedAux histGet
      rw [hrdata k, hrdb]
  · intro v
    unfold Database.num_equal_to TransactionHandler.num_equal_to
    rw [hrfreq v, show r.database = s₀.database from hrdb]

/-- Claim C2 witness: from the store `{a: 1}`, `BEGIN; SET a 2; UNSET a;
ROLLBACK` restores the observable state. -/
theorem rollback_perfect_inverse_witness :
    WF exState1 ∧ (∀ op ∈ [Op.set "a" "2", Op.unset "a"], isDataOp op = true) ∧
    (∃ t r, runOps [Op.set "a" "2", Op.unset "a"] (Database.begin exState1) = some t ∧
      (Database.rollback t).2 = true ∧ (Database.rollback t).1 = some r ∧
      (∀ k, Database.get r k = Database.get exState1 k) ∧
      (∀ v, Database.num_equal_to r v = Database.num_equal_to exState1 v)) :=
  have hwf : WF exState1 := @wf_runOps [Op.set "a" "1"] dbInit exState1 wf_dbInit rfl
  ⟨hwf, by decide, rollback_perfect_inverse exState1 hwf _ (by decide)⟩

/-! ### Machinery for claim C1: the global frequency invariant -/

theorem mem_mergedKeysList {s : Database} {k : String} (h : mergedAux s k ≠ none) :
    k ∈ mergedKeysList s := by
  unfold mergedKeysList
  rw [List.mem_dedup, List.mem_append]
  unfold mergedAux at h
  cases hh : (histGet s k).getLast? with
  | some e =>
      right
      have hnil : histGet s k ≠ [] := by
        intro hnil
        rw [hnil] at hh
        cases hh
      exact mem_keysOf_of_dictGet (histGet_ne_nil_dictGet hnil)
  | none =>
      left
      rw [hh] at h
      simp only at h
      cases hg : dictGet s.database.data k with
      | none => rw [hg] at h; exact absurd rfl h
      | some w => exact mem_keysOf_of_dictGet hg

theorem mergedCount_update {s s' : Database} (k₀ : String)
    (hsame : ∀ k, k ≠ k₀ → mergedAux s' k = mergedAux s k) (v : String) :
    (mergedCount s' v : Int) =
      (mergedCount s v : Int) + (if mergedAux s' k₀ = some v then 1 else 0)
        - (if mergedAux s k₀ = some v then 1 else 0) := by
  unfold mergedCount
  have h := @countP_update (mergedKeysList s) (mergedKeysList s')
    (List.nodup_dedup _) (List.nodup_dedup _) k₀
    (fun k => mergedAux s k == some v) (fun k => mergedAux s' k == some v)
    (fun k hk => by dsimp only; rw [hsame k hk])
    (fun k hk => by
      simp only [beq_iff_eq] at hk
      exact mem_mergedKeysList (by rw [hk]; simp))
    (fun k hk => by
      simp only [beq_iff_eq] at hk
      exact mem_mergedKeysList (by rw [hk]; simp))
  rw [h]
  simp [beq_iff_eq]

theorem storeCount_update {D D' : List (String × String)} (k₀ : String)
    (hsame : ∀ k, k ≠ k₀ → dictGet D' k = dictGet D k) (v : String) :
    ((keysOf D').dedup.countP (fun k => dictGet D' k == some v) : Int) =
      ((keysOf D).dedup.countP (fun k => dictGet D k == some v) : Int) +
        (if dictGet D' k₀ = some v then 1 else 0) -
        (if dictGet D k₀ = some v then 1 else 0) := by
  have h := @countP_update ((keysOf D).dedup) ((keysOf D').dedup)
    (List.nodup_dedup _) (List.nodup_dedup _) k₀
    (fun k => dictGet D k == some v) (fun k => dictGet D' k == some v)
    (fun k hk => by dsimp only; rw [hsame k hk])
    (fun k hk => by
      simp only [beq_iff_eq] at hk
      rw [List.mem_dedup]
      exact mem_keysOf_of_dictGet hk)
    (fun k hk => by
      simp only [beq_iff_eq] at hk
      rw [List.mem_dedup]
      exact mem_keysOf_of_dictGet hk)
  rw [h]
  simp [beq_iff_eq]

theorem histGet_of_stack_empty {s : Database} (hwf : WF s)
    (hstack : s.transactions_opened = []) (k : String) : histGet s k = [] := by
  unfold histGet
  rw [(hwf.emptyStack hstack).1]
  rfl

theorem cinv_txn_write {s s' : Database} (hne : NEHist s)
    (hsi : StoreInv s) (hfi : FreqInvariant s)
    (key : String) (entry : Option String) (hentry : entry ≠ some "")
    (hdb : s'.database = s.database)
    (hsame : ∀ k, k ≠ key → dictGet s'.transactions.data k = dictGet s.transactions.data k)
    (hkey : ∃ l, histGet s' key = l ++ [entry] ∧ l.Sublist (histGet s key))
    (hfreq : ∀ w, freqD s'.transactions.values_freq w =
      freqD s.transactions.values_freq w -
        (if mergedAux s key = some w then 1 else 0) +
        (if entry = some w then 1 else 0)) :
    NEHist s' ∧ StoreInv s' ∧ FreqInvariant s' := by
  obtain ⟨l, hl, hsub⟩ := hkey
  have hmergedsame : ∀ k, k ≠ key → mergedAux s' k = mergedAux s k := by
    intro k hk
    unfold mergedAux histGet
    rw [hsame k hk, hdb]
  have hmerged' : mergedAux s' key = entry := mergedAux_concat hl
  refine ⟨?_, ?_, ?_⟩
  · intro k kl hkl
    by_cases hkk : k = key
    · subst hkk
      have hkl' : histGet s' k = kl := by unfold histGet; rw [hkl]; rfl
      rw [hl] at hkl'
      intro hmem
      rw [← hkl'] at hmem
      rcases List.mem_append.mp hmem with hml | hme
      · have hms : (some "" : Option String) ∈ histGet s k := hsub.subset hml
        unfold histGet at hms
        cases hdg : dictGet s.transactions.data k with
        | none => rw [hdg] at hms; simp at hms
        | some kl₀ =>
            rw [hdg] at hms
            exact hne k kl₀ hdg (by simpa using hms)
      · exact hentry ((List.mem_singleton.mp hme).symm)
    · rw [hsame k hkk] at hkl
      exact hne k kl hkl
  · intro w
    rw [hdb]
    exact hsi w
  · intro w
    have hmc := mergedCount_update key hmergedsame w
    have hbase := hfi w
    rw [hdb, hfreq w, hmc, hmerged']
    omega

theorem cinv_clear {s : Database} (hsi : StoreInv s) :
    NEHist (TransactionHandler.clear s) ∧ StoreInv (TransactionHandler.clear s) ∧
    FreqInvariant (TransactionHandler.clear s) := by
  refine ⟨?_, ?_, ?_⟩
  · intro k kl hkl
    simp [TransactionHandler.clear, dictGet] at hkl
  · intro w
    show freqD s.database.values_freq w = _
    exact hsi w
  · intro w
    show freqD s.database.values_freq w + freqD ([] : List (String × Int)) w = _
    have h0 : freqD ([] : List (String × Int)) w = 0 := rfl
    rw [h0, add_zero]
    have hlist : mergedKeysList (TransactionHandler.clear s) =
        (keysOf s.database.data).dedup := by
      show ((keysOf s.database.data ++ keysOf ([] : List (String × List (Option String)))).dedup) = _
      simp [keysOf]
    unfold mergedCount
    rw [hlist]
    rw [List.countP_congr (fun k _ => by
      show (mergedAux (TransactionHandler.clear s) k == some w) = true ↔
        (dictGet s.database.data k == some w) = true
      have : mergedAux (TransactionHandler.clear s) k = dictGet s.database.data k := by
        unfold mergedAux histGet TransactionHandler.clear
        simp [dictGet]
      rw [this])]
    exact hsi w

theorem cinv_rollback_fold (P : List String) :
    ∀ (st : Database), P.Nodup →
    NodupKeys st.transactions.data → NodupKeys st.transactions.values_freq →
    (∀ k, k ∈ P → histGet st k ≠ []) →
    NEHist st → StoreInv st → FreqInvariant st →
    ∃ r, P.foldlM rollbackKey st = some r ∧
      NEHist r ∧ StoreInv r ∧ FreqInvariant r := by
  induction P with
  | nil =>
      intro st _ _ _ _ h1 h2 h3
      exact ⟨st, rfl, h1, h2, h3⟩
  | cons k₀ P' ih =>
      intro st hnd ndH ndF hin hneh hsi hfi
      have hk₀P' : k₀ ∉ P' := (List.nodup_cons.mp hnd).1
      have hP' : P'.Nodup := (List.nodup_cons.mp hnd).2
      have hk₀ : histGet st k₀ ≠ [] := hin k₀ (by simp)
      have hdg : dictGet st.transactions.data k₀ =
          some ((histGet st k₀).dropLast ++ [(histGet st k₀).getLast hk₀]) := by
        rw [List.dropLast_append_getLast hk₀]
        exact histGet_ne_nil_dictGet hk₀
      have hstep := rollbackKey_eq hdg
      set l := (histGet st k₀).dropLast with hldef
      set e := (histGet st k₀).getLast hk₀ with hedef
      set prev : Option String :=
        (match l.getLast? with
         | some e' => e'
         | none => dictGet st.database.data k₀) with hprevdef
      set st₁ : Database :=
        { database := st.database
          transactions :=
            { data :=
                if l = [] then dictPop (dictSet st.transactions.data k₀ l) k₀
                else dictSet st.transactions.data k₀ l
              values_freq :=
                Data.decrease_freq
                  (Data.increase_freq st.transactions.values_freq prev) e }
          transactions_opened := st.transactions_opened } with hst₁
      have hdata₁ : ∀ k, k ≠ k₀ → dictGet st₁.transactions.data k =
          dictGet st.transactions.data k := by
        intro k hk
        have hkk : ¬ k₀ = k := fun hh => hk hh.symm
        rw [hst₁]
        dsimp only
        by_cases hll : l = []
        · rw [if_pos hll, dictGet_dictPop_ne _ _ _ hkk, dictGet_dictSet, if_neg hkk]
        · rw [if_neg hll, dictGet_dictSet, if_neg hkk]
      have hhist₁ : histGet st₁ k₀ = l := by
        unfold histGet
        rw [hst₁]
        dsimp only
        by_cases hll : l = []
        · rw [if_pos hll, dictGet_dictPop_self k₀ (nodupKeys_dictSet _ _ ndH), hll]
          rfl
        · rw [if_neg hll, dictGet_dictSet, if_pos rfl]
          rfl
      have hmerged₁ : mergedAux st₁ k₀ = prev := by
        unfold mergedAux
        rw [hhist₁, hprevdef]
      have hmerged₀ : mergedAux st k₀ = e :=
        mergedAux_concat (show histGet st k₀ = l ++ [e] by
          rw [hldef, hedef]
          exact (List.dropLast_append_getLast hk₀).symm)
      have hmergedsame : ∀ k, k ≠ k₀ → mergedAux st₁ k = mergedAux st k := by
        intro k hk
        unfold mergedAux histGet
        rw [hdata₁ k hk, hst₁]
      have hfr : ∀ w, freqD st₁.transactions.values_freq w =
          freqD st.transactions.values_freq w +
            (if prev = some w then 1 else 0) - (if e = some w then 1 else 0) := by
        intro w
        rw [hst₁]
        show freqD (Data.decrease_freq (Data.increase_freq
          st.transactions.values_freq prev) e) w = _
        exact freqD_decinc ndF prev e w
      have hndH₁ : NodupKeys st₁.transactions.data := by
        rw [hst₁]
        dsimp only
        by_cases hll : l = []
        · rw [if_pos hll]
          exact nodupKeys_dictPop _ (nodupKeys_dictSet _ _ ndH)
        · rw [if_neg hll]
          exact nodupKeys_dictSet _ _ ndH
      have hndF₁ : NodupKeys st₁.transactions.values_freq := by
        rw [hst₁]
        show NodupKeys (Data.decrease_freq (Data.increase_freq
          st.transactions.values_freq prev) e)
        exact nodupKeys_modify_freq (nodupKeys_modify_freq ndF _ _) _ _
      have hin₁ : ∀ k, k ∈ P' → histGet st₁ k ≠ [] := by
        intro k hk
        have hkk : k ≠ k₀ := fun hh => hk₀P' (hh ▸ hk)
        unfold histGet
        rw [hdata₁ k hkk]
        exact hin k (List.mem_cons_of_mem _ hk)
      have hneh₁ : NEHist st₁ := by
        intro k kl hkl
        by_cases hkk : k = k₀
        · subst hkk
          have hkll : kl = l := by
            have : histGet st₁ k = kl := by unfold histGet; rw [hkl]; rfl
            rw [hhist₁] at this
            exact this.symm
          subst hkll
          intro hmem
          have hms : (some "" : Option String) ∈ histGet st k := by
            rw [hldef] at hmem
            exact (List.dropLast_sublist _).subset hmem
          unfold histGet at hms
          cases hdg₀ : dictGet st.transactions.data k with
          | none => rw [hdg₀] at hms; simp at hms
          | some kl₀ =>
              rw [hdg₀] at hms
              exact hneh k kl₀ hdg₀ (by simpa using hms)
        · rw [hdata₁ k hkk] at hkl
          exact hneh k kl hkl
      have hsi₁ : StoreInv st₁ := by
        intro w
        rw [hst₁]
        show freqD st.database.values_freq w = _
        exact hsi w
      have hfi₁ : FreqInvariant st₁ := by
        intro w
        have hmc := mergedCount_update k₀ hmergedsame w
        have hbase := hfi w
        have hdbf : st₁.database = st.database := by rw [hst₁]
        rw [hmerged₁, hmerged₀] at hmc
        show freqD st₁.database.values_freq w + freqD st₁.transactions.values_freq w = _
        rw [hdbf, hfr w]
        omega
      obtain ⟨r, hfold, hr1, hr2, hr3⟩ := ih st₁ hP' hndH₁ hndF₁ hin₁ hneh₁ hsi₁ hfi₁
      refine ⟨r, ?_, hr1, hr2, hr3⟩
      rw [List.foldlM_cons, hstep]
      exact hfold

theorem cinv_commit {s s' : Database} (hwf : WF s) (hneh : NEHist s)
    ( _hsi : StoreInv s) (hfi : FreqInvariant s)
    (hstack : s.transactions_opened ≠ [])
    (h : TransactionHandler.commit s = some s') :
    NEHist s' ∧ StoreInv s' ∧ FreqInvariant s' := by
  obtain ⟨t, hc, htr, hto, hnd, hndf, hlook, hfreq⟩ :=
    th_commit_desc hstack hwf.ndStore hwf.ndStoreF hwf.ndHist hwf.ndTxnF
      hwf.histNonempty
  rw [hc] at h
  cases h
  have htrd : s'.transactions.data = [] := by rw [htr]
  have htrf : s'.transactions.values_freq = [] := by rw [htr]
  have hstore_merged : ∀ k, dictGet s'.database.data k = mergedAux s k := by
    intro k
    rw [hlook k]
    cases hdg : dictGet s.transactions.data k with
    | none =>
        unfold mergedAux histGet
        rw [hdg]
        rfl
    | some kl =>
        have hkl : kl ≠ [] := hwf.histNonempty k kl hdg
        cases hgl : kl.getLast? with
        | none => exact absurd (List.getLast?_eq_none_iff.mp hgl) hkl
        | some e =>
            have hld : lastD kl = e := by unfold lastD; rw [hgl]; rfl
            have hsplit : kl.dropLast ++ [e] = kl :=
              List.dropLast_append_getLast? e (by rw [hgl]; rfl)
            have hmem : e ∈ kl := by
              rw [← hsplit]
              simp
            have hne' : e ≠ some "" := fun hh => hneh k kl hdg (hh ▸ hmem)
            have hmaux : mergedAux s k = e := by
              unfold mergedAux histGet
              rw [hdg]
              show (match kl.getLast? with
                | some e => e
                | none => dictGet s.database.data k) = e
              rw [hgl]
            dsimp only
            rw [hld, hmaux]
            cases he : e with
            | none => simp [pyTruthy]
            | some str =>
                have : str ≠ "" := fun hh => hne' (by rw [he, hh])
                simp [pyTruthy, this]
  refine ⟨?_, ?_, ?_⟩
  · intro k kl hkl
    rw [htrd] at hkl
    cases hkl
  · intro w
    rw [hfreq w]
    have hbase := hfi w
    rw [hbase]
    unfold mergedCount
    exact_mod_cast congrArg (Nat.cast : Nat → Int) (countP_congr_mem
      (List.nodup_dedup _) (List.nodup_dedup _)
      (fun k => by simp only [hstore_merged k])
      (fun k hk => by
        simp only [beq_iff_eq] at hk
        exact mem_mergedKeysList (by rw [hk]; simp))
      (fun k hk => by
        simp only [beq_iff_eq] at hk
        rw [List.mem_dedup]
        exact mem_keysOf_of_dictGet hk))
  · intro w
    have hmaux' : ∀ k, mergedAux s' k = dictGet s'.database.data k := by
      intro k
      unfold mergedAux histGet
      rw [htrd]
      rfl
    rw [hfreq w, htrf]
    have hz : freqD ([] : List (String × Int)) w = 0 := rfl
    rw [hz, add_zero]
    have hbase := hfi w
    rw [hbase]
    unfold mergedCount
    exact_mod_cast congrArg (Nat.cast : Nat → Int) (countP_congr_mem
      (List.nodup_dedup _) (List.nodup_dedup _)
      (fun k => by simp only [hmaux' k, hstore_merged k])
      (fun k hk => by
        simp only [beq_iff_eq] at hk
        exact mem_mergedKeysList (by rw [hk]; simp))
      (fun k hk => by
        simp only [beq_iff_eq] at hk
        exact mem_mergedKeysList (by rw [hk]; simp)))

theorem cinv_step {s s' : Database} {op : Op} (hwf : WF s)
    (hneh : NEHist s) (hsi : StoreInv s) (hfi : FreqInvariant s)
    (hop : opSetNonempty op = true)
    (h : applyOp s op = some s') :
    NEHist s' ∧ StoreInv s' ∧ FreqInvariant s' := by
  cases op with
  | get _ => cases h; exact ⟨hneh, hsi, hfi⟩
  | numEqualTo _ => cases h; exact ⟨hneh, hsi, hfi⟩
  | begin =>
      cases h
      exact ⟨hneh, hsi, hfi⟩
  | set key v =>
      have hv : v ≠ "" := by
        simpa [opSetNonempty] using hop
      by_cases hold : Database.get s key = some v
      · rw [show applyOp s (Op.set key v) = Database.set s key v from rfl,
          db_set_self hold] at h
        cases h
        exact ⟨hneh, hsi, hfi⟩
      · by_cases hstack : s.transactions_opened = []
        · rw [show applyOp s (Op.set key v) = Database.set s key v from rfl,
            db_set_direct_eq hstack hold] at h
          cases h
          have hget : Database.get s key = dictGet s.database.data key :=
            db_get_stack_empty hstack key
          have hfr : ∀ w, freqD (Data.increase_freq (Data.decrease_freq
              s.database.values_freq (Database.get s key)) (some v)) w =
              freqD s.database.values_freq w -
                (if Database.get s key = some w then 1 else 0) +
                (if (some v : Option String) = some w then 1 else 0) :=
            fun w => freqD_incdec hwf.ndStoreF _ _ w
          have hsame : ∀ k, k ≠ key →
              dictGet (dictSet s.database.data key v) k = dictGet s.database.data k := by
            intro k hk
            rw [dictGet_dictSet, if_neg (fun hh => hk hh.symm)]
          have hkey' : dictGet (dictSet s.database.data key v) key = some v := by
            rw [dictGet_dictSet, if_pos rfl]
          refine ⟨hneh, ?_, ?_⟩
          · intro w
            show freqD (Data.increase_freq (Data.decrease_freq
              s.database.values_freq (Database.get s key)) (some v)) w =
              ((keysOf (dictSet s.database.data key v)).dedup.countP
                (fun k => dictGet (dictSet s.database.data key v) k == some w) : Int)
            rw [hfr w]
            have hsc := storeCount_update key hsame w
            have hbase := hsi w
            rw [hkey', ← hget] at hsc
            omega
          · intro w
            have hh0 : ∀ k, histGet s k = [] := histGet_of_stack_empty hwf hstack
            have hh0' : ∀ k, histGet
                ⟨⟨dictSet s.database.data key v,
                  Data.increase_freq (Data.decrease_freq s.database.values_freq
                    (Database.get s key)) (some v)⟩,
                 s.transactions, s.transactions_opened⟩ k = [] := hh0
            have hmaux : ∀ k, mergedAux s k = dictGet s.database.data k := by
              intro k
              unfold mergedAux
              rw [hh0 k]
              rfl
            have hmaux' : ∀ k, mergedAux
                ⟨⟨dictSet s.database.data key v,
                  Data.increase_freq (Data.decrease_freq s.database.values_freq
                    (Database.get s key)) (some v)⟩,
                 s.transactions, s.transactions_opened⟩ k =
                dictGet (dictSet s.database.data key v) k := by
              intro k
              unfold mergedAux
              rw [hh0' k]
              rfl
            have hmergedsame : ∀ k, k ≠ key → mergedAux
                ⟨⟨dictSet s.database.data key v,
                  Data.increase_freq (Data.decrease_freq s.database.values_freq
                    (Database.get s key)) (some v)⟩,
                 s.transactions, s.transactions_opened⟩ k = mergedAux s k := by
              intro k hk
              rw [hmaux' k, hmaux k, hsame k hk]
            have hmc := mergedCount_update key hmergedsame w
            rw [hmaux' key, hkey', hmaux key, ← hget] at hmc
            have hbase := hfi w
            show freqD (Data.increase_freq (Data.decrease_freq
              s.database.values_freq (Database.get s key)) (some v)) w +
              freqD s.transactions.values_freq w = _
            rw [hfr w]
            omega
        · rw [show applyOp s (Op.set key v) = Database.set s key v from rfl,
            db_set_txn_eq hstack hold] at h
          cases hs : s.transactions_opened with
          | nil => exact absurd hs hstack
          | cons latest rest =>
              have hgm : Database.get s key = mergedAux s key := db_get_active hstack key
              by_cases hmem : key ∈ latest
              · have hhne := histGet_ne_of_touched hwf hs hmem
                rw [th_set_touched_eq _ _ hs hmem hhne] at h
                cases h
                refine cinv_txn_write hneh hsi hfi key (some v)
                  (by simp [hv]) rfl ?_ ?_ ?_
                · intro k hk
                  dsimp only
                  rw [dictGet_dictSet, if_neg (fun hh => hk hh.symm)]
                · refine ⟨(histGet s key).dropLast, ?_, List.dropLast_sublist _⟩
                  rw [histGet_set_state rfl key, if_pos rfl]
                · intro w
                  show freqD (Data.increase_freq (Data.decrease_freq
                    s.transactions.values_freq (Database.get s key)) (some v)) w = _
                  rw [freqD_incdec hwf.ndTxnF _ _ w, hgm]
              · rw [th_set_fresh_eq _ _ hs hmem] at h
                cases h
                refine cinv_txn_write hneh hsi hfi key (some v)
                  (by simp [hv]) rfl ?_ ?_ ?_
                · intro k hk
                  dsimp only
                  rw [dictGet_dictSet, if_neg (fun hh => hk hh.symm)]
                · refine ⟨histGet s key, ?_, List.Sublist.refl _⟩
                  rw [histGet_set_state rfl key, if_pos rfl]
                · intro w
                  show freqD (Data.increase_freq (Data.decrease_freq
                    s.transactions.values_freq (Database.get s key)) (some v)) w = _
                  rw [freqD_incdec hwf.ndTxnF _ _ w, hgm]
  | unset key =>
      by_cases hstack : s.transactions_opened = []
      · rw [show applyOp s (Op.unset key) = Database.unset s key from rfl,
          db_unset_direct_none hstack] at h
        cases h
      · rw [show applyOp s (Op.unset key) = Database.unset s key from rfl,
          db_unset_txn_eq hstack] at h
        cases hov : Database.get s key with
        | none =>
            rw [hov, th_unset_none_eq] at h
            cases h
            exact ⟨hneh, hsi, hfi⟩
        | some ov =>
            rw [hov] at h
            have hgm : mergedAux s key = some ov := by
              rw [← db_get_active hstack key, hov]
            cases hs : s.transactions_opened with
            | nil => exact absurd hs hstack
            | cons latest rest =>
                by_cases hmem : key ∈ latest
                · have hhne := histGet_ne_of_touched hwf hs hmem
                  rw [th_unset_touched_eq _ hs hmem hhne] at h
                  cases h
                  refine cinv_txn_write hneh hsi hfi key none
                    (by simp) rfl ?_ ?_ ?_
                  · intro k hk
                    dsimp only
                    rw [dictGet_dictSet, if_neg (fun hh => hk hh.symm)]
                  · refine ⟨(histGet s key).dropLast, ?_, List.dropLast_sublist _⟩
                    rw [histGet_set_state rfl key, if_pos rfl]
                  · intro w
                    show freqD (Data.decrease_freq s.transactions.values_freq
                      (some ov)) w = _
                    rw [freqD_dec hwf.ndTxnF _ w, hgm]
                    simp only [reduceCtorEq, if_false]
                    omega
                · rw [th_unset_fresh_eq _ hs hmem] at h
                  cases h
                  refine cinv_txn_write hneh hsi hfi key none
                    (by simp) rfl ?_ ?_ ?_
                  · intro k hk
                    dsimp only
                    rw [dictGet_dictSet, if_neg (fun hh => hk hh.symm)]
                  · refine ⟨histGet s key, ?_, List.Sublist.refl _⟩
                    rw [histGet_set_state rfl key, if_pos rfl]
                  · intro w
                    show freqD (Data.decrease_freq s.transactions.values_freq
                      (some ov)) w = _
                    rw [freqD_dec hwf.ndTxnF _ w, hgm]
                    simp only [reduceCtorEq, if_false]
                    omega
  | rollback =>
      by_cases hstack : s.transactions_opened = []
      · rw [show applyOp s Op.rollback = (Database.rollback s).1 from rfl,
          db_rollback_inactive hstack] at h
        cases h
        exact ⟨hneh, hsi, hfi⟩
      · rw [show applyOp s Op.rollback = (Database.rollback s).1 from rfl,
          db_rollback_active hstack] at h
        cases hs : s.transactions_opened with
        | nil => exact absurd hs hstack
        | cons latest rest =>
            cases hrest : rest with
            | nil =>
                rw [hrest] at hs
                rw [th_rollback_one_eq hs] at h
                cases h
                exact cinv_clear hsi
            | cons r₀ rs =>
                have hrne : rest ≠ [] := by rw [hrest]; simp
                rw [th_rollback_multi_eq hs hrne] at h
                have hin : ∀ k, k ∈ latest →
                    histGet { s with transactions_opened := rest } k ≠ [] := by
                  intro k hk
                  show histGet s k ≠ []
                  exact histGet_ne_of_touched hwf hs hk
                obtain ⟨r, hfold, hr1, hr2, hr3⟩ :=
                  cinv_rollback_fold latest { s with transactions_opened := rest }
                    (hwf.ndTouched latest (by rw [hs]; simp)) hwf.ndHist hwf.ndTxnF
                    hin hneh hsi hfi
                rw [hfold] at h
                cases h
                exact ⟨hr1, hr2, hr3⟩
  | commit =>
      by_cases hstack : s.transactions_opened = []
      · rw [show applyOp s Op.commit = (Database.commit s).1 from rfl,
          db_commit_inactive hstack] at h
        cases h
        exact ⟨hneh, hsi, hfi⟩
      · rw [show applyOp s Op.commit = (Database.commit s).1 from rfl,
          db_commit_active hstack] at h
        exact cinv_commit hwf hneh hsi hfi hstack h

theorem cinv_runOps (ops : List Op) :
    ∀ {s s' : Database}, WF s → NEHist s → StoreInv s → FreqInvariant s →
    (∀ op ∈ ops, opSetNonempty op = true) → runOps ops s = some s' →
    WF s' ∧ NEHist s' ∧ StoreInv s' ∧ FreqInvariant s' := by
  induction ops with
  | nil =>
      intro s s' h1 h2 h3 h4 _ h
      cases h
      exact ⟨h1, h2, h3, h4⟩
  | cons op rest ih =>
      intro s s' h1 h2 h3 h4 hne h
      unfold runOps at h
      cases happ : applyOp s op with
      | none => rw [happ] at h; cases h
      | some s₁ =>
          rw [happ] at h
          obtain ⟨g1, g2, g3⟩ := cinv_step h1 h2 h3 h4 (hne op (by simp)) happ
          exact ih (wf_step h1 happ) g1 g2 g3
            (fun o ho => hne o (List.mem_cons_of_mem _ ho)) h

/-- Claim C1 as amended: after any run from the fresh database in which
every `set` writes a non-empty value, the store's frequency count of each
value plus the transaction stack's aggregate delta equals the number of
keys whose merged current value (topmost layer's last history entry if
any, else the store's binding) is that value. -/
theorem freq_invariant_holds (ops : List Op) (s : Database)
    (hrun : runOps ops dbInit = some s)
    (hne : ∀ op ∈ ops, opSetNonempty op = true) :
    FreqInvariant s := by
  have hinit₂ : NEHist dbInit := by
    intro k kl hkl
    simp [dbInit, dictGet] at hkl
  have hinit₃ : StoreInv dbInit := by
    intro v
    rfl
  have hinit₄ : FreqInvariant dbInit := by
    intro v
    rfl
  exact (cinv_runOps ops wf_dbInit hinit₂ hinit₃ hinit₄ hne hrun).2.2.2

/-- Claim C1 witness: the invariant holds at the end of
`SET a 1; BEGIN; SET a 2; COMMIT`. -/
theorem freq_invariant_holds_witness :
    runOps [Op.set "a" "1", Op.begin, Op.set "a" "2", Op.commit] dbInit =
      some c1WitState ∧
    (∀ op ∈ [Op.set "a" "1", Op.begin, Op.set "a" "2", Op.commit],
      opSetNonempty op = true) ∧
    FreqInvariant c1WitState :=
  ⟨rfl, by decide,
    freq_invariant_holds [Op.set "a" "1", Op.begin, Op.set "a" "2", Op.commit]
      c1WitState rfl (by decide)⟩

/-! ### Claim C3: commit flattening -/

theorem runOps_cons (op : Op) (l : List Op) (s : Database) :
    runOps (op :: l) s =
      match applyOp s op with
      | some s₁ => runOps l s₁
      | none => none := rfl

theorem runOps_append (l₁ l₂ : List Op) : ∀ (s : Database),
    runOps (l₁ ++ l₂) s =
      match runOps l₁ s with
      | some s₁ => runOps l₂ s₁
      | none => none := by
  induction l₁ with
  | nil => intro s; rfl
  | cons op rest ih =>
      intro s
      rw [List.cons_append, runOps_cons, runOps_cons]
      cases h : applyOp s op with
      | none => rfl
      | some s₁ => exact ih s₁

theorem csim_set_aux {s₀ d t : Database} {key v : String} (hc : CSim s₀ d t) (hv : v ≠ "")
    (pre : List (Option String)) (stk : List (List String)) (hstk : stk ≠ [])
    (hwfT : WF ⟨t.database,
      ⟨dictSet t.transactions.data key (pre ++ [some v]),
       Data.increase_freq
         (Data.decrease_freq t.transactions.values_freq (Database.get t key)) (some v)⟩,
      stk⟩) :
    CSim s₀
      { d with database :=
        { data := dictSet d.database.data key v
          values_freq :=
            Data.increase_freq
              (Data.decrease_freq d.database.values_freq (Database.get d key))
              (some v) } }
      ⟨t.database,
       ⟨dictSet t.transactions.data key (pre ++ [some v]),
        Data.increase_freq
          (Data.decrease_freq t.transactions.values_freq (Database.get t key)) (some v)⟩,
       stk⟩ := by
  have hsame : Database.get t key = Database.get d key := by
    rw [db_get_active hc.tstack key, db_get_stack_empty hc.dstack key, hc.look key]
  refine ⟨hwfT, hc.dstack, hc.dtxn, ?_, ?_, hstk, hc.tstore, ?_, ?_, ?_⟩
  · show NodupKeys (dictSet d.database.data key v)
    exact nodupKeys_dictSet _ _ hc.ndD
  · show NodupKeys (Data.increase_freq
      (Data.decrease_freq d.database.values_freq (Database.get d key)) (some v))
    exact nodupKeys_incdec hc.ndDF _ _
  · intro k kl hkl
    dsimp only at hkl
    rw [dictGet_dictSet] at hkl
    by_cases hkk : key = k
    · rw [if_pos hkk] at hkl
      cases hkl
      exact ⟨v, List.getLast?_concat _, hv⟩
    · rw [if_neg hkk] at hkl
      exact hc.histLast k kl hkl
  · intro k
    unfold mergedAux
    rw [histGet_set_state rfl k]
    by_cases hkk : key = k
    · rw [if_pos hkk, List.getLast?_concat]
      dsimp only
      rw [dictGet_dictSet, if_pos hkk]
    · rw [if_neg hkk]
      dsimp only
      rw [dictGet_dictSet, if_neg hkk]
      have hl := hc.look k
      unfold mergedAux at hl
      exact hl
  · intro w
    dsimp only
    rw [freqD_incdec hc.hwf.ndTxnF _ _ w, freqD_incdec hc.ndDF _ _ w, hsame]
    have hf := hc.freq w
    omega

theorem csim_set {s₀ d t : Database} {key v : String} (hc : CSim s₀ d t) (hv : v ≠ "") :
    ∃ d' t', Database.set d key v = some d' ∧ Database.set t key v = some t' ∧
      CSim s₀ d' t' := by
  have hsame : Database.get t key = Database.get d key := by
    rw [db_get_active hc.tstack key, db_get_stack_empty hc.dstack key, hc.look key]
  by_cases hold : Database.get d key = some v
  · exact ⟨d, t, db_set_self hold, db_set_self (hsame.trans hold), hc⟩
  · have holdt : Database.get t key ≠ some v := fun hh => hold (hsame.symm.trans hh)
    have hd' := db_set_direct_eq hc.dstack hold
    cases hs : t.transactions_opened with
    | nil => exact absurd hs hc.tstack
    | cons latest rest =>
        by_cases hmem : key ∈ latest
        · have hne := histGet_ne_of_touched hc.hwf hs hmem
          have ht' : Database.set t key v = some
              ⟨t.database,
               ⟨dictSet t.transactions.data key ((histGet t key).dropLast ++ [some v]),
                Data.increase_freq
                  (Data.decrease_freq t.transactions.values_freq (Database.get t key))
                  (some v)⟩,
               latest :: rest⟩ := by
            rw [db_set_txn_eq hc.tstack holdt]
            exact th_set_touched_eq (Database.get t key) v hs hmem hne
          exact ⟨_, _, hd', ht',
            csim_set_aux hc hv ((histGet t key).dropLast) (latest :: rest)
              (by simp) (wf_set hc.hwf ht')⟩
        · have ht' : Database.set t key v = some
              ⟨t.database,
               ⟨dictSet t.transactions.data key (histGet t key ++ [some v]),
                Data.increase_freq
                  (Data.decrease_freq t.transactions.values_freq (Database.get t key))
                  (some v)⟩,
               (latest ++ [key]) :: rest⟩ := by
            rw [db_set_txn_eq hc.tstack holdt]
            exact th_set_fresh_eq (Database.get t key) v hs hmem
          exact ⟨_, _, hd', ht',
            csim_set_aux hc hv (histGet t key) ((latest ++ [key]) :: rest)
              (by simp) (wf_set hc.hwf ht')⟩

theorem csim_step {s₀ d t : Database} {op : Op} (hc : CSim s₀ d t)
    (hop : isFlatOp op = true) :
    ∃ d' t', applyOp d op = some d' ∧ applyOp t op = some t' ∧ CSim s₀ d' t' := by
  cases op with
  | set k v =>
      have hv : v ≠ "" := by simpa [isFlatOp] using hop
      obtain ⟨d', t', h1, h2, h3⟩ := csim_set hc hv
      exact ⟨d', t', h1, h2, h3⟩
  | get k => exact ⟨d, t, rfl, rfl, hc⟩
  | numEqualTo v => exact ⟨d, t, rfl, rfl, hc⟩
  | unset k => simp [isFlatOp] at hop
  | begin => simp [isFlatOp] at hop
  | rollback => simp [isFlatOp] at hop
  | commit => simp [isFlatOp] at hop

theorem csim_run (ops : List Op) :
    ∀ {s₀ d t : Database}, (∀ op ∈ ops, isFlatOp op = true) → CSim s₀ d t →
    ∃ d' t', runOps ops d = some d' ∧ runOps ops t = some t' ∧ CSim s₀ d' t' := by
  induction ops with
  | nil =>
      intro s₀ d t _ hc
      exact ⟨d, t, rfl, rfl, hc⟩
  | cons op rest ih =>
      intro s₀ d t hops hc
      have hop := hops op (by simp)
      have hrest : ∀ op ∈ rest, isFlatOp op = true :=
        fun o ho => hops o (List.mem_cons_of_mem _ ho)
      obtain ⟨d₁, t₁, hd₁, ht₁, hc₁⟩ := csim_step hc hop
      obtain ⟨d', t', hd', ht', hc'⟩ := ih hrest hc₁
      refine ⟨d', t', ?_, ?_, hc'⟩
      · unfold runOps; rw [hd₁]; exact hd'
      · unfold runOps; rw [ht₁]; exact ht'

theorem csim_begin {s₀ d t : Database} (hc : CSim s₀ d t) :
    CSim s₀ d (Database.begin t) := by
  refine ⟨wf_begin hc.hwf, hc.dstack, hc.dtxn, hc.ndD, hc.ndDF, ?_, hc.tstore,
    hc.histLast, hc.look, hc.freq⟩
  show ([] :: t.transactions_opened : List (List String)) ≠ []
  exact List.cons_ne_nil _ _

theorem csim_init {s₀ : Database} (hwf : WF s₀) (hstack : s₀.transactions_opened = []) :
    CSim s₀ s₀ (Database.begin s₀) := by
  obtain ⟨hd, hf⟩ := hwf.emptyStack hstack
  refine ⟨wf_begin hwf, hstack, ⟨hd, hf⟩, hwf.ndStore, hwf.ndStoreF, ?_, rfl, ?_, ?_, ?_⟩
  · show ([] :: s₀.transactions_opened : List (List String)) ≠ []
    exact List.cons_ne_nil _ _
  · intro k kl hkl
    rw [show (Database.begin s₀).transactions.data = s₀.transactions.data from rfl,
      hd] at hkl
    exact absurd hkl (by simp [dictGet])
  · intro k
    unfold mergedAux histGet
    rw [show (Database.begin s₀).transactions.data = s₀.transactions.data from rfl, hd]
    simp [dictGet, Database.begin, TransactionHandler.begin]
  · intro w
    rw [show (Database.begin s₀).transactions.values_freq =
      s₀.transactions.values_freq from rfl, hf]
    simp [freqD, dictGet]

/-- Claim C3 as amended: from any structurally well-formed state with no
transaction open, for operation sequences `ops1` and `ops2` built from
`set` with non-empty values, `get` and `numEqualTo`, the run
`BEGIN; ops1; BEGIN; ops2; COMMIT` and the direct run `ops1; ops2` both
succeed, both end with no transaction open, and their final stores agree on
every key's value and on every value's frequency count.  (The original
unrestricted claim is refuted by `commit_flattening_fails`: with `unset`
allowed the direct run raises while the transactional run commits.) -/
theorem commit_flattening (s₀ : Database) (hwf : WF s₀)
    (hstack : s₀.transactions_opened = []) (ops1 ops2 : List Op)
    (h1 : ∀ op ∈ ops1, isFlatOp op = true) (h2 : ∀ op ∈ ops2, isFlatOp op = true) :
    ∃ t' d',
      runOps (Op.begin :: (ops1 ++ Op.begin :: (ops2 ++ [Op.commit]))) s₀ = some t' ∧
      runOps (ops1 ++ ops2) s₀ = some d' ∧
      t'.transactions_opened = [] ∧ d'.transactions_opened = [] ∧
      (∀ k, dictGet t'.database.data k = dictGet d'.database.data k) ∧
      (∀ v, freqD t'.database.values_freq v = freqD d'.database.values_freq v) := by
  obtain ⟨d₁, t₁, hd₁, ht₁, hc₁⟩ := csim_run ops1 h1 (csim_init hwf hstack)
  obtain ⟨d₂, t₂, hd₂, ht₂, hc₂⟩ := csim_run ops2 h2 (csim_begin hc₁)
  obtain ⟨sf, hcommit, htxn, hstk, hndD, hndF, hdata, hfreq⟩ :=
    th_commit_desc hc₂.tstack hc₂.hwf.ndStore hc₂.hwf.ndStoreF hc₂.hwf.ndHist
      hc₂.hwf.ndTxnF hc₂.hwf.histNonempty
  have hcommitstep : applyOp t₂ Op.commit = some sf := by
    show (Database.commit t₂).1 = some sf
    rw [db_commit_active hc₂.tstack]
    exact hcommit
  have hrunT :
      runOps (Op.begin :: (ops1 ++ Op.begin :: (ops2 ++ [Op.commit]))) s₀ = some sf := by
    show runOps (ops1 ++ Op.begin :: (ops2 ++ [Op.commit])) (Database.begin s₀) = some sf
    rw [runOps_append ops1 (Op.begin :: (ops2 ++ [Op.commit])) (Database.begin s₀), ht₁]
    show runOps (ops2 ++ [Op.commit]) (Database.begin t₁) = some sf
    rw [runOps_append ops2 [Op.commit] (Database.begin t₁), ht₂]
    show runOps [Op.commit] t₂ = some sf
    rw [runOps_cons, hcommitstep]
    rfl
  have hrunD : runOps (ops1 ++ ops2) s₀ = some d₂ := by
    rw [runOps_append ops1 ops2 s₀, hd₁]
    exact hd₂
  have hdataF : ∀ k, dictGet sf.database.data k = dictGet d₂.database.data k := by
    intro k
    rw [hdata k]
    cases hh : dictGet t₂.transactions.data k with
    | some kl =>
        obtain ⟨v, hlast, hv⟩ := hc₂.histLast k kl hh
        have hld : lastD kl = some v := by
          unfold lastD
          rw [hlast]
          rfl
        have hmerged : mergedAux t₂ k = some v := by
          unfold mergedAux histGet
          rw [hh, Option.getD_some, hlast]
        have hlook := hc₂.look k
        rw [hmerged] at hlook
        have hpt : pyTruthy (some v) = true := by simp [pyTruthy, hv]
        dsimp only
        rw [hld, hpt, if_pos rfl]
        exact hlook
    | none =>
        have hlook := hc₂.look k
        unfold mergedAux histGet at hlook
        rw [hh] at hlook
        exact hlook
  have hfreqF : ∀ w, freqD sf.database.values_freq w = freqD d₂.database.values_freq w := by
    intro w
    rw [hfreq w, show t₂.database = s₀.database from hc₂.tstore]
    exact hc₂.freq w
  exact ⟨sf, d₂, hrunT, hrunD, hstk, hc₂.dstack, hdataF, hfreqF⟩

/-- Claim C3 witness: from the store `{a: 1}`, the run
`BEGIN; SET a 2; BEGIN; SET b 3; COMMIT` and the direct run
`SET a 2; SET b 3` end in stores agreeing on every key and every count. -/
theorem commit_flattening_witness :
    WF exState1 ∧ exState1.transactions_opened = [] ∧
    (∀ op ∈ [Op.set "a" "2"], isFlatOp op = true) ∧
    (∀ op ∈ [Op.set "b" "3"], isFlatOp op = true) ∧
    (∃ t' d',
      runOps (Op.begin :: ([Op.set "a" "2"] ++
        Op.begin :: ([Op.set "b" "3"] ++ [Op.commit]))) exState1 = some t' ∧
      runOps ([Op.set "a" "2"] ++ [Op.set "b" "3"]) exState1 = some d' ∧
      t'.transactions_opened = [] ∧ d'.transactions_opened = [] ∧
      (∀ k, dictGet t'.database.data k = dictGet d'.database.data k) ∧
      (∀ v, freqD t'.database.values_freq v = freqD d'.database.values_freq v)) :=
  ⟨@wf_runOps [Op.set "a" "1"] dbInit exState1 wf_dbInit rfl, rfl,
   by decide, by decide,
   commit_flattening exState1 (@wf_runOps [Op.set "a" "1"] dbInit exState1 wf_dbInit rfl)
     rfl [Op.set "a" "2"] [Op.set "b" "3"] (by decide) (by decide)⟩
